import Mathlib

/-!
# A finite-state holder built from two-token switches

Shallow embedding of `switch.go` and `fsm.go`.

* Every `context.WithCancel` context is an entry of a `Heap`; a context, its
  `Done()` channel and its `CancelFunc` are identified by the index of that
  entry, a natural number (a token).  The entry holds whether the context has been cancelled.
* A `map[bool]T` is a `TokenMap` (one optional entry per key), a
  `map[State]*Switch` is an association list.  Reading a nil map behaves as
  reading an empty one, so a nil map is the map without entries.
* A panic is the result `none`.  A Go `error` is an `Option Err`, `none` being
  the nil error.
* The mutexes are not modelled: every method body runs alone.  The order in
  which `range` visits a map is an explicit argument of the methods that
  range over the state map, and the choice `select` makes between two ready
  cases is an explicit argument of the wait.
-/

namespace Fsm

/-! ## Contexts -/

/-- The contexts created so far; entry `t` is `true` once context `t` is cancelled. -/
structure Heap where
  ctxs : List Bool
deriving DecidableEq, Repr

/-- Number of contexts created so far. -/
def Heap.size (h : Heap) : Nat := h.ctxs.length

/-- Model of `context.WithCancel(context.Background())`: a fresh, live context. -/
def Heap.WithCancel (h : Heap) : Nat × Heap :=
  (h.ctxs.length, ⟨h.ctxs ++ [false]⟩)

/-- Calling the cancel function of context `t`; cancelling again changes nothing. -/
def Heap.cancel (h : Heap) (t : Nat) : Heap :=
  ⟨h.ctxs.set t true⟩

/-- Whether context `t` is cancelled: `Err() != nil`, and `Done()` is closed. -/
def Heap.isDone (h : Heap) (t : Nat) : Bool :=
  h.ctxs.getD t false

/-! ## switch.go -/

/-- The constant `ON`. -/
abbrev ON : Bool := true

/-- The constant `OFF`. -/
abbrev OFF : Bool := false

/-- A `map[bool]T` whose values are tokens; `none` is a missing key. -/
structure TokenMap where
  atOn : Option Nat
  atOff : Option Nat
deriving DecidableEq, Repr

/-- The map without entries: `make(map[bool]T)`, and the nil map for reads. -/
def TokenMap.empty : TokenMap := ⟨none, none⟩

/-- Map read `m[k]`; `none` is the zero value (a nil interface or nil func). -/
def TokenMap.get (m : TokenMap) (k : Bool) : Option Nat :=
  if k then m.atOn else m.atOff

/-- Map write `m[k] = t`. -/
def TokenMap.set (m : TokenMap) (k : Bool) (t : Nat) : TokenMap :=
  if k then { m with atOn := some t } else { m with atOff := some t }

/-- The struct `Switch` without its mutex; `cancel[k]` holds the token it cancels. -/
structure Switch where
  context : TokenMap
  cancel : TokenMap
deriving DecidableEq, Repr

/-- Model of `NewSwitch`: two fresh contexts, the one for `!on` cancelled at once.
The read `s.cancel[!on]` follows the two writes, so it finds its entry. -/
def NewSwitch (on' : Bool) (h : Heap) : Switch × Heap :=
  let (onCtx, h1) := h.WithCancel
  let (offCtx, h2) := h1.WithCancel
  let s : Switch := ⟨TokenMap.empty, TokenMap.empty⟩
  let s : Switch := { s with context := s.context.set ON onCtx }
  let s : Switch := { s with context := s.context.set OFF offCtx }
  let s : Switch := { s with cancel := s.cancel.set ON onCtx }
  let s : Switch := { s with cancel := s.cancel.set OFF offCtx }
  (s, h2.cancel (if on' then offCtx else onCtx))

/-- Model of `(*Switch).Release`: every stored cancel function is called, then both maps
are set to nil.  The two calls commute, so the order of the `range` does not show. -/
def Switch.Release (s : Switch) (h : Heap) : Switch × Heap :=
  let h1 := match s.cancel.atOn with
    | some c => h.cancel c
    | none => h
  let h2 := match s.cancel.atOff with
    | some c => h1.cancel c
    | none => h1
  (⟨TokenMap.empty, TokenMap.empty⟩, h2)

/-- Model of `(*Switch).isOn`: `s.context[ON].Err() == nil`; a missing entry is a nil
interface, whose method call panics. -/
def Switch.isOn (s : Switch) (h : Heap) : Option Bool :=
  match s.context.get ON with
  | none => none
  | some c => some (!h.isDone c)

/-- Model of `(*Switch).trun`. -/
def Switch.trun (s : Switch) (on' : Bool) (h : Heap) : Option (Switch × Heap) :=
  match s.isOn h with
  | none => none
  | some cur =>
    if cur = on' then some (s, h)
    else
      let (ctx, h1) := h.WithCancel
      match s.cancel.get (!on') with
      | none => none
      | some c =>
        some ({ context := s.context.set on' ctx, cancel := s.cancel.set on' ctx }, h1.cancel c)

/-- Model of `(*Switch).IsOn`. -/
def Switch.IsOn (s : Switch) (h : Heap) : Option Bool := s.isOn h

/-- Model of `(*Switch).TrueOn`. -/
def Switch.TrueOn (s : Switch) (h : Heap) : Option (Switch × Heap) := s.trun ON h

/-- Model of `(*Switch).TrueOff`. -/
def Switch.TrueOff (s : Switch) (h : Heap) : Option (Switch × Heap) := s.trun OFF h

/-- Model of `(*Switch).On`: the `Done()` channel of `context[OFF]`. -/
def Switch.On (s : Switch) : Option Nat := s.context.get OFF

/-- Model of `(*Switch).Off`: the `Done()` channel of `context[ON]`. -/
def Switch.Off (s : Switch) : Option Nat := s.context.get ON

/-- A finite sequence of `TrueOn` (`true`) and `TrueOff` (`false`) calls on one switch. -/
def Switch.runCalls : List Bool → Switch × Heap → Option (Switch × Heap)
  | [], p => some p
  | true :: rest, (s, h) =>
    match s.TrueOn h with
    | none => none
    | some p => Switch.runCalls rest p
  | false :: rest, (s, h) =>
    match s.TrueOff h with
    | none => none
    | some p => Switch.runCalls rest p

/-! ## fsm.go -/

/-- Errors of a caller-supplied `context.Context`. -/
inductive CtxErr where
  | Canceled
  | DeadlineExceeded
deriving DecidableEq, Repr

/-- The non-nil error values. -/
inductive Err where
  | ErrStateExists
  | ErrStateNotExists
  | ofContext (e : CtxErr)
deriving DecidableEq, Repr

section
variable {State : Type} [DecidableEq State]

/-- Map read `m[s]` with its `ok` flag: the first entry under key `s`. -/
def mapGet : List (State × Switch) → State → Option Switch
  | [], _ => none
  | (k, v) :: rest, s => if k = s then some v else mapGet rest s

/-- Map write `m[s] = v`: replaces the entry under `s`, or adds one. -/
def mapPut : List (State × Switch) → State → Switch → List (State × Switch)
  | [], s, v => [(s, v)]
  | (k, w) :: rest, s, v => if k = s then (k, v) :: rest else (k, w) :: mapPut rest s v

/-- The struct `Machine` without its mutex. -/
structure Machine (State : Type) where
  states : List (State × Switch)
deriving DecidableEq, Repr

/-- The registered states: the keys of the state map. -/
def Machine.keys (m : Machine State) : List State := m.states.map Prod.fst

/-- Model of `(*Machine).addState`. -/
def Machine.addState (m : Machine State) (s : State) (init : Bool) (h : Heap) :
    Option Err × Machine State × Heap :=
  match mapGet m.states s with
  | some _ => (some Err.ErrStateExists, m, h)
  | none =>
    let (sw, h1) := NewSwitch init h
    (none, ⟨mapPut m.states s sw⟩, h1)

/-- The loop of `New` over `otherStates`; the machine is `none` when `New` returns nil. -/
def New.addOthers (m : Machine State) :
    List State → Heap → (Option (Machine State) × Option Err) × Heap
  | [], h => ((some m, none), h)
  | s :: rest, h =>
    match m.addState s false h with
    | (some err, _, h1) => ((none, some err), h1)
    | (none, m1, h1) => New.addOthers m1 rest h1

/-- Model of `New`: the returned pair, and the heap after the call. -/
def New (init : State) (otherStates : List State) (h : Heap) :
    (Option (Machine State) × Option Err) × Heap :=
  let m : Machine State := ⟨[]⟩
  match m.addState init true h with
  | (some err, _, h1) => ((none, some err), h1)
  | (none, m1, h1) => New.addOthers m1 otherStates h1

/-- The loop of `(*Machine).Release`, visiting the keys in the order `order`: the switch
under each key is released.  The switches themselves are dropped with the map. -/
def Machine.releaseAll (m : Machine State) : List State → Heap → Heap
  | [], h => h
  | k :: rest, h =>
    match mapGet m.states k with
    | none => Machine.releaseAll m rest h
    | some sw => Machine.releaseAll m rest (sw.Release h).2

/-- Model of `(*Machine).Release`: every switch is released and the map set to nil; `order`
is the order in which `range` visits the keys of the state map. -/
def Machine.Release (m : Machine State) (order : List State) (h : Heap) :
    Machine State × Heap :=
  (⟨[]⟩, Machine.releaseAll m order h)

/-- The second loop of `TransitTo`, visiting the keys in the order `order`:
every switch whose key differs from `s` gets `TrueOff`. -/
def Machine.offOthers (s : State) :
    List State → Machine State × Heap → Option (Machine State × Heap)
  | [], p => some p
  | k :: rest, (m, h) =>
    if k = s then Machine.offOthers s rest (m, h)
    else
      match mapGet m.states k with
      | none => Machine.offOthers s rest (m, h)
      | some sw =>
        match sw.TrueOff h with
        | none => none
        | some (sw1, h1) => Machine.offOthers s rest (⟨mapPut m.states k sw1⟩, h1)

/-- Model of `(*Machine).TransitTo`; `order` is the order in which `range` visits the
keys of the state map. -/
def Machine.TransitTo (m : Machine State) (order : List State) (s : State) (h : Heap) :
    Option (Option Err × Machine State × Heap) :=
  match mapGet m.states s with
  | none => some (some Err.ErrStateNotExists, m, h)
  | some sw =>
    match sw.TrueOn h with
    | none => none
    | some (sw1, h1) =>
      match Machine.offOthers s order (⟨mapPut m.states s sw1⟩, h1) with
      | none => none
      | some (m2, h2) => some (none, m2, h2)

/-- Outcome of the `select` of `waitForState`. -/
inductive WaitResult where
  | blocked
  | returned (err : Option Err)
deriving DecidableEq, Repr

/-- The part of `waitForState` under the read lock: the error returned at once, or the
channel to select on. -/
def Machine.waitChan (m : Machine State) (s : State) (on' : Bool) :
    Option (Err ⊕ Nat) :=
  match mapGet m.states s with
  | none => some (Sum.inl Err.ErrStateNotExists)
  | some sw =>
    match (if on' then sw.On else sw.Off) with
    | none => none
    | some c => some (Sum.inr c)

/-- The `select` of `waitForState` in heap `h`: `ctx` is `ctx.Err()` (non-nil exactly when
`ctx.Done()` is closed), `c` the channel read before.  With no ready case the call blocks;
with both ready Go picks either, here the first case when `pickCtx` is `true`. -/
def selectWait (ctx : Option CtxErr) (c : Nat) (pickCtx : Bool) (h : Heap) : WaitResult :=
  match ctx, h.isDone c with
  | none, false => WaitResult.blocked
  | some e, false => WaitResult.returned (some (Err.ofContext e))
  | none, true => WaitResult.returned none
  | some e, true =>
    if pickCtx then WaitResult.returned (some (Err.ofContext e)) else WaitResult.returned none

/-- Model of `(*Machine).waitForState` with nothing else running: the outcome, and the
machine and heap, which the method only reads. -/
def Machine.waitForState (m : Machine State) (ctx : Option CtxErr) (s : State) (on' : Bool)
    (pickCtx : Bool) (h : Heap) : Option (WaitResult × Machine State × Heap) :=
  match m.waitChan s on' with
  | none => none
  | some (Sum.inl err) => some (WaitResult.returned (some err), m, h)
  | some (Sum.inr c) => some (selectWait ctx c pickCtx h, m, h)

/-- Model of `(*Machine).WaitForState`. -/
def Machine.WaitForState (m : Machine State) (ctx : Option CtxErr) (s : State)
    (pickCtx : Bool) (h : Heap) : Option (WaitResult × Machine State × Heap) :=
  m.waitForState ctx s ON pickCtx h

/-- Model of `(*Machine).WaitForStateToPass`. -/
def Machine.WaitForStateToPass (m : Machine State) (ctx : Option CtxErr) (s : State)
    (pickCtx : Bool) (h : Heap) : Option (WaitResult × Machine State × Heap) :=
  m.waitForState ctx s OFF pickCtx h

/-- Model of `(*Machine).CurrentState`, visiting the keys in the order `order`; `none` is a
panic: a nil dereference in `IsOn`, or `panic("machine without state")` after the loop. -/
def Machine.CurrentState (m : Machine State) : List State → Heap → Option State
  | [], _ => none
  | k :: rest, h =>
    match mapGet m.states k with
    | none => m.CurrentState rest h
    | some sw =>
      match sw.IsOn h with
      | none => none
      | some true => some k
      | some false => m.CurrentState rest h

/-! ## Reachable machines -/

/-- The state that the calls of a trace leave current: the target of the most recent
`TransitTo` that returned nil, or `init`.  A trace lists the calls most recent first, each
with the error it returned. -/
def lastSuccess (init : State) : List (State × Option Err) → State
  | [] => init
  | (s, none) :: _ => s
  | (_, some _) :: rest => lastSuccess init rest

/-- A finite sequence of `TransitTo` calls, each with the order in which its `range` visits
the keys; the calls made so far are `tr`.  The result holds the trace of all calls (most
recent first, each with the error it returned), or is `none` when a call panics. -/
def Machine.runTransits : List (List State × State) → List (State × Option Err) →
    Machine State × Heap → Option (List (State × Option Err) × Machine State × Heap)
  | [], tr, p => some (tr, p)
  | (order, s) :: rest, tr, (m, h) =>
    match m.TransitTo order s h with
    | none => none
    | some (err, m1, h1) => Machine.runTransits rest ((s, err) :: tr) (m1, h1)

/-- The machines produced by a successful `New init others`, called in heap `h0`, followed by
`TransitTo` calls, together with the trace of these calls (most recent first).  Each call
ranges over the state map in some order of its keys. -/
inductive Reachable (init : State) (others : List State) (h0 : Heap) :
    List (State × Option Err) → Machine State × Heap → Prop
  | new (m : Machine State) (h : Heap) :
      New init others h0 = ((some m, none), h) → Reachable init others h0 [] (m, h)
  | transit (tr : List (State × Option Err)) (m : Machine State) (h : Heap)
      (order : List State) (s : State) (err : Option Err) (m1 : Machine State) (h1 : Heap) :
      Reachable init others h0 tr (m, h) → order.Perm m.keys →
      m.TransitTo order s h = some (err, m1, h1) →
      Reachable init others h0 ((s, err) :: tr) (m1, h1)

end

/-! ## Invariants -/

/-- Context `t` is stored in the `context` map of `sw`. -/
def Switch.owns (sw : Switch) (t : Nat) : Prop :=
  sw.context.atOn = some t ∨ sw.context.atOff = some t

/-- Context `t` is stored in the switch `o`, if there is one. -/
def ownsOpt (o : Option Switch) (t : Nat) : Prop :=
  ∃ sw, o = some sw ∧ sw.owns t

/-- Switch `sw` is intact in heap `h`: both maps hold the same two contexts, both created
in `h`, and exactly one of the two is cancelled. -/
def SwitchOK (h : Heap) (sw : Switch) : Prop :=
  ∃ a b, sw.context = ⟨some a, some b⟩ ∧ sw.cancel = ⟨some a, some b⟩ ∧
    a < h.size ∧ b < h.size ∧ h.isDone a = !h.isDone b

/-- What storing switch `sw1` in place of `o` may do to the heap: `sw1` is intact, its
contexts are those of `o` or new ones, and no other context of the old heap changes. -/
def Frame (h : Heap) (o : Option Switch) (h1 : Heap) (sw1 : Switch) : Prop :=
  SwitchOK h1 sw1 ∧ h.size ≤ h1.size ∧
    (∀ t, sw1.owns t → ownsOpt o t ∨ h.size ≤ t) ∧
    (∀ t, t < h.size → ¬ ownsOpt o t → h1.isDone t = h.isDone t)

section
variable {State : Type} [DecidableEq State]

/-- Every switch of the machine is intact and no context belongs to two states. -/
def MachineOK (m : Machine State) (h : Heap) : Prop :=
  (∀ k sw, mapGet m.states k = some sw → SwitchOK h sw) ∧
  (∀ k1 k2 sw1 sw2 t, mapGet m.states k1 = some sw1 → mapGet m.states k2 = some sw2 →
    sw1.owns t → sw2.owns t → k1 = k2)

/-- State `cur` is registered, its switch reports ON and every other switch reports OFF. -/
def IsCurrent (m : Machine State) (h : Heap) (cur : State) : Prop :=
  cur ∈ m.keys ∧ ∀ k sw, mapGet m.states k = some sw → sw.IsOn h = some (decide (k = cur))

/-- What the second loop of `TransitTo` has done when it is over. -/
def OffPost (s : State) (order : List State) (m : Machine State) (h : Heap)
    (m1 : Machine State) (h1 : Heap) : Prop :=
  MachineOK m1 h1 ∧ m1.keys = m.keys ∧
    (∀ t, h.isDone t = true → h1.isDone t = true) ∧
    mapGet m1.states s = mapGet m.states s ∧
    (∀ sw, mapGet m.states s = some sw →
      sw.isOn h1 = sw.isOn h ∧ ∀ t, sw.owns t → h1.isDone t = h.isDone t) ∧
    (∀ k sw, k ≠ s → mapGet m.states k = some sw →
      ∃ sw1, mapGet m1.states k = some sw1 ∧ sw1.context.atOn = sw.context.atOn ∧
        (sw.isOn h = some false →
          sw1 = sw ∧ sw1.isOn h1 = some false ∧ ∀ t, sw.owns t → h1.isDone t = h.isDone t) ∧
        (k ∈ order → sw1.isOn h1 = some false))

/-- What a `TransitTo s` on a registered state `s`, whose switch was `sw`, has done. -/
def TransitPost (s : State) (sw : Switch) (order : List State) (m : Machine State) (h : Heap)
    (m1 : Machine State) (h1 : Heap) : Prop :=
  MachineOK m1 h1 ∧ m1.keys = m.keys ∧
    (∀ t, h.isDone t = true → h1.isDone t = true) ∧
    (∃ sw1, mapGet m1.states s = some sw1 ∧ sw1.isOn h1 = some true ∧
      sw1.context.atOff = sw.context.atOff ∧
      (∀ t, sw.context.atOff = some t → h1.isDone t = true) ∧
      (sw.isOn h = some true → sw1 = sw)) ∧
    (∀ k swk, k ≠ s → mapGet m.states k = some swk →
      ∃ sw1, mapGet m1.states k = some sw1 ∧ sw1.context.atOn = swk.context.atOn ∧
        (swk.isOn h = some false →
          sw1 = swk ∧ sw1.isOn h1 = some false ∧ ∀ t, swk.owns t → h1.isDone t = h.isDone t) ∧
        (k ∈ order → sw1.isOn h1 = some false))

end

/-! ## A concrete machine -/

/-- The machine that `New 0 [1, 2]` returns when called in the empty heap. -/
def demoMachine : Machine Nat :=
  ⟨[(0, ⟨⟨some 0, some 1⟩, ⟨some 0, some 1⟩⟩), (1, ⟨⟨some 2, some 3⟩, ⟨some 2, some 3⟩⟩),
    (2, ⟨⟨some 4, some 5⟩, ⟨some 4, some 5⟩⟩)]⟩

/-- The heap after `New 0 [1, 2]` called in the empty heap. -/
def demoHeap : Heap := ⟨[false, true, true, false, true, false]⟩

/-! ## Lemmas on contexts -/

theorem Heap.size_WithCancel (h : Heap) : h.WithCancel.2.size = h.size + 1 := by
  simp [Heap.WithCancel, Heap.size]

theorem Heap.fst_WithCancel (h : Heap) : h.WithCancel.1 = h.size := rfl

theorem Heap.isDone_WithCancel (h : Heap) (t : Nat) :
    h.WithCancel.2.isDone t = h.isDone t := by
  simp only [Heap.isDone, Heap.WithCancel, List.getD_eq_getElem?_getD, List.getElem?_append]
  split
  · rfl
  · rename_i hlt
    have hle : h.ctxs.length ≤ t := Nat.le_of_not_lt hlt
    rw [List.getElem?_eq_none hle]
    cases t - h.ctxs.length with
    | zero => rfl
    | succ n => rfl

theorem Heap.size_cancel (h : Heap) (c : Nat) : (h.cancel c).size = h.size := by
  simp [Heap.cancel, Heap.size]

theorem Heap.isDone_cancel (h : Heap) (c t : Nat) :
    (h.cancel c).isDone t = (decide (t = c ∧ c < h.size) || h.isDone t) := by
  simp only [Heap.isDone, Heap.cancel, Heap.size, List.getD_eq_getElem?_getD,
    List.getElem?_set]
  by_cases hct : c = t
  · subst hct
    by_cases hlt : c < h.ctxs.length
    · simp [hlt]
    · have hle : h.ctxs.length ≤ c := Nat.le_of_not_lt hlt
      simp [hlt, List.getElem?_eq_none hle]
  · have htc : ¬ t = c := fun e => hct e.symm
    simp [hct, htc]

theorem Heap.lt_size_of_isDone {h : Heap} {t : Nat} (hd : h.isDone t = true) :
    t < h.size := by
  by_contra hc
  have hle : h.ctxs.length ≤ t := Nat.le_of_not_lt hc
  simp [Heap.isDone, List.getD_eq_getElem?_getD, List.getElem?_eq_none hle] at hd

theorem Heap.isDone_size (h : Heap) : h.isDone h.size = false := by
  cases hd : h.isDone h.size with
  | false => rfl
  | true => exact absurd (Heap.lt_size_of_isDone hd) (lt_irrefl _)

/-! ## Lemmas on a switch -/

theorem SwitchOK.isOn_eq {h : Heap} {sw : Switch} (hok : SwitchOK h sw) :
    ∃ a b, sw.context = ⟨some a, some b⟩ ∧ sw.isOn h = some (!h.isDone a) ∧
      h.isDone b = !h.isDone a := by
  obtain ⟨a, b, hc, _, _, _, hd⟩ := hok
  refine ⟨a, b, hc, ?_, ?_⟩
  · simp [Switch.isOn, TokenMap.get, hc]
  · rw [hd]; simp

theorem NewSwitch_spec (on' : Bool) (h : Heap) :
    Frame h none (NewSwitch on' h).2 (NewSwitch on' h).1 ∧
      (NewSwitch on' h).1.isOn (NewSwitch on' h).2 = some on' := by
  have h1 : h.isDone h.size = false := Heap.isDone_size h
  have h2 : h.isDone (h.size + 1) = false := by
    cases hd : h.isDone (h.size + 1) with
    | false => rfl
    | true => exact absurd (Heap.lt_size_of_isDone hd) (by omega)
  have hs : h.ctxs.length = h.size := rfl
  refine ⟨⟨⟨h.size, h.size + 1, ?_, ?_, ?_, ?_, ?_⟩, ?_, ?_, ?_⟩, ?_⟩
  · simp [NewSwitch, Heap.WithCancel, TokenMap.set, TokenMap.empty, hs]
  · simp [NewSwitch, Heap.WithCancel, TokenMap.set, TokenMap.empty, hs]
  · simp only [NewSwitch, Heap.size_cancel, Heap.size_WithCancel]; omega
  · simp only [NewSwitch, Heap.size_cancel, Heap.size_WithCancel]; omega
  · have h3 : h.size < h.size + 1 + 1 := by omega
    cases on' <;>
      simp [NewSwitch, Heap.isDone_cancel, Heap.isDone_WithCancel, Heap.size_WithCancel,
        Heap.fst_WithCancel, h1, h2, h3]
  · simp only [NewSwitch, Heap.size_cancel, Heap.size_WithCancel]; omega
  · intro t ht
    right
    rcases ht with ht | ht <;>
      simp [NewSwitch, Heap.WithCancel, TokenMap.set, TokenMap.empty, hs] at ht <;> omega
  · intro t ht _
    have e1 : ¬ t = h.size := by omega
    have e2 : ¬ t = h.size + 1 := by omega
    cases on' <;>
      simp [NewSwitch, Heap.isDone_cancel, Heap.isDone_WithCancel, Heap.size_WithCancel,
        Heap.fst_WithCancel, e1, e2]
  · have h3 : h.size < h.size + 1 + 1 := by omega
    cases on' <;>
      simp [NewSwitch, Switch.isOn, TokenMap.get, TokenMap.set, TokenMap.empty,
        Heap.isDone_cancel, Heap.isDone_WithCancel, Heap.size_WithCancel,
        Heap.fst_WithCancel, h1, h2, h3]

theorem trun_same {h : Heap} {sw : Switch} {on' : Bool} (hon : sw.isOn h = some on') :
    sw.trun on' h = some (sw, h) := by
  simp [Switch.trun, hon]

theorem Frame.refl {h : Heap} {sw : Switch} (hok : SwitchOK h sw) :
    Frame h (some sw) h sw :=
  ⟨hok, le_refl _, fun _ ht => Or.inl ⟨sw, rfl, ht⟩, fun _ _ _ => rfl⟩

theorem trun_spec {h : Heap} {sw : Switch} (hok : SwitchOK h sw) (on' : Bool) :
    ∃ sw1 h1, sw.trun on' h = some (sw1, h1) ∧ Frame h (some sw) h1 sw1 ∧
      sw1.isOn h1 = some on' ∧ (∀ t, h.isDone t = true → h1.isDone t = true) ∧
      sw1.context.get (!on') = sw.context.get (!on') ∧
      (∀ t, sw.context.get (!on') = some t → h1.isDone t = true) ∧
      (sw.isOn h = some on' → sw1 = sw ∧ h1 = h) := by
  obtain ⟨a, b, hc, hk, ha, hb, hd⟩ := id hok
  have hon : sw.isOn h = some (!h.isDone a) := by simp [Switch.isOn, TokenMap.get, hc]
  by_cases hcur : (!h.isDone a) = on'
  · rw [hcur] at hon
    refine ⟨sw, h, trun_same hon, Frame.refl hok, hon, fun _ ht => ht, rfl, ?_, fun _ => ⟨rfl, rfl⟩⟩
    intro t ht
    cases on' <;> simp [TokenMap.get, hc] at ht <;> subst ht <;> simp_all
  · have hne : ∀ x : Nat, x < h.size → ¬ h.size = x := fun x hx e => by omega
    have hsz : h.isDone h.size = false := Heap.isDone_size h
    cases on' with
    | true =>
      have hda : h.isDone a = true := by simpa using hcur
      have hdb : h.isDone b = false := by simpa [hda] using hd.symm
      refine ⟨⟨⟨some h.size, some b⟩, ⟨some h.size, some b⟩⟩, h.WithCancel.2.cancel b,
        ?_, ⟨⟨h.size, b, rfl, rfl, ?_, ?_, ?_⟩, ?_, ?_, ?_⟩, ?_, ?_, ?_, ?_, ?_⟩
      · simp [Switch.trun, hon, hda, TokenMap.get, TokenMap.set, hk, hc, Heap.WithCancel,
          Heap.size]
      · simp only [Heap.size_cancel, Heap.size_WithCancel]; omega
      · simp only [Heap.size_cancel, Heap.size_WithCancel]; omega
      · have hb1 : b < h.size + 1 := by omega
        simp [Heap.isDone_cancel, Heap.isDone_WithCancel, Heap.size_WithCancel, hsz, hne b hb,
          hb1]
      · simp only [Heap.size_cancel, Heap.size_WithCancel]; omega
      · intro t ht
        rcases ht with ht | ht
        · right; simp at ht; omega
        · left; exact ⟨sw, rfl, Or.inr (by rw [hc]; exact ht)⟩
      · intro t _ hno
        have htb : ¬ t = b := fun e => hno ⟨sw, rfl, Or.inr (by rw [hc, e])⟩
        simp [Heap.isDone_cancel, Heap.isDone_WithCancel, htb]
      · have hb1 : b < h.size + 1 := by omega
        simp [Switch.isOn, TokenMap.get, Heap.isDone_cancel, Heap.isDone_WithCancel,
          Heap.size_WithCancel, hsz, hne b hb, hb1]
      · intro t ht
        simp [Heap.isDone_cancel, Heap.isDone_WithCancel, ht]
      · simp [TokenMap.get, hc]
      · intro t ht
        have hb1 : b < h.size + 1 := by omega
        simp [TokenMap.get, hc] at ht
        subst ht
        simp [Heap.isDone_cancel, Heap.isDone_WithCancel, Heap.size_WithCancel, hb1]
      · intro hh
        rw [hon] at hh
        simp [hda] at hh
    | false =>
      have hda : h.isDone a = false := by simpa using hcur
      have hdb : h.isDone b = true := by simpa [hda] using hd.symm
      refine ⟨⟨⟨some a, some h.size⟩, ⟨some a, some h.size⟩⟩, h.WithCancel.2.cancel a,
        ?_, ⟨⟨a, h.size, rfl, rfl, ?_, ?_, ?_⟩, ?_, ?_, ?_⟩, ?_, ?_, ?_, ?_, ?_⟩
      · simp [Switch.trun, hon, hda, TokenMap.get, TokenMap.set, hk, hc, Heap.WithCancel,
          Heap.size]
      · simp only [Heap.size_cancel, Heap.size_WithCancel]; omega
      · simp only [Heap.size_cancel, Heap.size_WithCancel]; omega
      · have ha1 : a < h.size + 1 := by omega
        simp [Heap.isDone_cancel, Heap.isDone_WithCancel, Heap.size_WithCancel, hsz, hne a ha,
          ha1]
      · simp only [Heap.size_cancel, Heap.size_WithCancel]; omega
      · intro t ht
        rcases ht with ht | ht
        · left; exact ⟨sw, rfl, Or.inl (by rw [hc]; exact ht)⟩
        · right; simp at ht; omega
      · intro t _ hno
        have hta : ¬ t = a := fun e => hno ⟨sw, rfl, Or.inl (by rw [hc, e])⟩
        simp [Heap.isDone_cancel, Heap.isDone_WithCancel, hta]
      · have ha1 : a < h.size + 1 := by omega
        simp [Switch.isOn, TokenMap.get, Heap.isDone_cancel, Heap.isDone_WithCancel,
          Heap.size_WithCancel, ha1]
      · intro t ht
        simp [Heap.isDone_cancel, Heap.isDone_WithCancel, ht]
      · simp [TokenMap.get, hc]
      · intro t ht
        have ha1 : a < h.size + 1 := by omega
        simp [TokenMap.get, hc] at ht
        subst ht
        simp [Heap.isDone_cancel, Heap.isDone_WithCancel, Heap.size_WithCancel, ha1]
      · intro hh
        rw [hon] at hh
        simp [hda] at hh

theorem SwitchOK.lt_of_owns {h : Heap} {sw : Switch} (hok : SwitchOK h sw) {t : Nat}
    (ht : sw.owns t) : t < h.size := by
  obtain ⟨a, b, hc, _, ha, hb, _⟩ := hok
  rcases ht with ht | ht <;> simp [hc] at ht <;> omega

theorem SwitchOK.transport {h h1 : Heap} {sw : Switch} (hok : SwitchOK h sw)
    (hsz : h.size ≤ h1.size) (hsame : ∀ t, sw.owns t → h1.isDone t = h.isDone t) :
    SwitchOK h1 sw ∧ sw.isOn h1 = sw.isOn h := by
  obtain ⟨a, b, hc, hk, ha, hb, hd⟩ := hok
  have ea : h1.isDone a = h.isDone a := hsame a (Or.inl (by rw [hc]))
  have eb : h1.isDone b = h.isDone b := hsame b (Or.inr (by rw [hc]))
  refine ⟨⟨a, b, hc, hk, by omega, by omega, by rw [ea, eb, hd]⟩, ?_⟩
  simp [Switch.isOn, TokenMap.get, hc, ea]

/-! ## Lemmas on the state map -/

section
variable {State : Type} [DecidableEq State]

theorem mapGet_mapPut (l : List (State × Switch)) (k : State) (v : Switch) (k2 : State) :
    mapGet (mapPut l k v) k2 = if k = k2 then some v else mapGet l k2 := by
  induction l with
  | nil => simp [mapPut, mapGet]
  | cons e rest ih =>
    obtain ⟨k0, w⟩ := e
    by_cases h0 : k0 = k
    · subst h0
      by_cases h2 : k0 = k2 <;> simp [mapPut, mapGet, h2]
    · by_cases h2 : k0 = k2
      · subst h2
        have hk : ¬ k = k0 := fun e => h0 e.symm
        simp [mapPut, mapGet, h0, hk]
      · simp [mapPut, mapGet, h0, h2, ih]

theorem mapGet_eq_none_iff (l : List (State × Switch)) (k : State) :
    mapGet l k = none ↔ k ∉ l.map Prod.fst := by
  induction l with
  | nil => simp [mapGet]
  | cons e rest ih =>
    obtain ⟨k0, w⟩ := e
    by_cases h0 : k0 = k
    · simp [mapGet, h0]
    · have hk : ¬ k = k0 := fun e => h0 e.symm
      simp [mapGet, h0, hk, ih]

theorem keys_mapPut_of_some {l : List (State × Switch)} {k : State} {w : Switch}
    (hg : mapGet l k = some w) (v : Switch) :
    (mapPut l k v).map Prod.fst = l.map Prod.fst := by
  induction l with
  | nil => simp [mapGet] at hg
  | cons e rest ih =>
    obtain ⟨k0, w0⟩ := e
    by_cases h0 : k0 = k
    · simp [mapPut, h0]
    · simp only [mapGet, h0, if_false] at hg
      simp [mapPut, h0, ih hg]

theorem keys_mapPut_of_none {l : List (State × Switch)} {k : State}
    (hg : mapGet l k = none) (v : Switch) :
    (mapPut l k v).map Prod.fst = l.map Prod.fst ++ [k] := by
  induction l with
  | nil => simp [mapPut]
  | cons e rest ih =>
    obtain ⟨k0, w0⟩ := e
    by_cases h0 : k0 = k
    · simp [mapGet, h0] at hg
    · simp only [mapGet, h0, if_false] at hg
      simp [mapPut, h0, ih hg]

theorem mapPut_self {l : List (State × Switch)} {k : State} {v : Switch}
    (hg : mapGet l k = some v) : mapPut l k v = l := by
  induction l with
  | nil => simp [mapGet] at hg
  | cons e rest ih =>
    obtain ⟨k0, w0⟩ := e
    by_cases h0 : k0 = k
    · simp only [mapGet, h0, if_true, Option.some.injEq] at hg
      simp [mapPut, h0, hg]
    · simp only [mapGet, h0, if_false] at hg
      simp [mapPut, h0, ih hg]

theorem MachineOK.put {m : Machine State} {h h1 : Heap} {k : State} {sw1 : Switch}
    (hm : MachineOK m h) (hf : Frame h (mapGet m.states k) h1 sw1) :
    MachineOK ⟨mapPut m.states k sw1⟩ h1 ∧
      ∀ k2 sw2, k2 ≠ k → mapGet m.states k2 = some sw2 →
        sw2.isOn h1 = sw2.isOn h ∧ ∀ t, sw2.owns t → h1.isDone t = h.isDone t := by
  obtain ⟨hok1, hsz, hown, hsame⟩ := hf
  obtain ⟨hsw, hdis⟩ := hm
  have hkeep : ∀ k2 sw2, k2 ≠ k → mapGet m.states k2 = some sw2 →
      ∀ t, sw2.owns t → h1.isDone t = h.isDone t := by
    intro k2 sw2 hne hg t ht
    refine hsame t ((hsw k2 sw2 hg).lt_of_owns ht) ?_
    rintro ⟨sw, hgk, hsk⟩
    exact hne (hdis k2 k sw2 sw t hg hgk ht hsk)
  refine ⟨⟨?_, ?_⟩, fun k2 sw2 hne hg => ⟨?_, hkeep k2 sw2 hne hg⟩⟩
  · intro k2 sw2 hg
    simp only [mapGet_mapPut] at hg
    by_cases hk : k = k2
    · rw [if_pos hk] at hg
      cases hg
      exact hok1
    · rw [if_neg hk] at hg
      exact ((hsw k2 sw2 hg).transport hsz (hkeep k2 sw2 (fun e => hk e.symm) hg)).1
  · intro k1 k2 s1 s2 t hg1 hg2 ho1 ho2
    simp only [mapGet_mapPut] at hg1 hg2
    by_cases hk1 : k = k1
    · by_cases hk2 : k = k2
      · rw [← hk1, ← hk2]
      · exfalso
        rw [if_pos hk1] at hg1
        rw [if_neg hk2] at hg2
        cases hg1
        have hlt := (hsw k2 s2 hg2).lt_of_owns ho2
        rcases hown t ho1 with ⟨sw, hgk, hsk⟩ | hge
        · exact hk2 (hdis k k2 sw s2 t hgk hg2 hsk ho2)
        · omega
    · by_cases hk2 : k = k2
      · exfalso
        rw [if_pos hk2] at hg2
        rw [if_neg hk1] at hg1
        cases hg2
        have hlt := (hsw k1 s1 hg1).lt_of_owns ho1
        rcases hown t ho2 with ⟨sw, hgk, hsk⟩ | hge
        · exact hk1 (hdis k k1 sw s1 t hgk hg1 hsk ho1)
        · omega
      · rw [if_neg hk1] at hg1
        rw [if_neg hk2] at hg2
        exact hdis k1 k2 s1 s2 t hg1 hg2 ho1 ho2
  · exact ((hsw k2 sw2 hg).transport hsz (hkeep k2 sw2 hne hg)).2

/-! ## Lemmas on `TransitTo` -/

theorem OffPost.nil (s : State) {m : Machine State} {h : Heap} (hm : MachineOK m h) :
    OffPost s [] m h m h := by
  refine ⟨hm, rfl, fun _ ht => ht, rfl, fun _ _ => ⟨rfl, fun _ _ => rfl⟩, ?_⟩
  intro k sw _ hg
  exact ⟨sw, hg, rfl, fun hoff => ⟨rfl, hoff, fun _ _ => rfl⟩, fun hk => by simp at hk⟩

theorem OffPost.skip {s k : State} {rest : List State} {m m1 : Machine State} {h h1 : Heap}
    (hk : k = s ∨ mapGet m.states k = none) (hp : OffPost s rest m h m1 h1) :
    OffPost s (k :: rest) m h m1 h1 := by
  obtain ⟨h1ok, hkeys, hmono, hs, hsw, hoth⟩ := hp
  refine ⟨h1ok, hkeys, hmono, hs, hsw, ?_⟩
  intro k2 sw hne hg
  obtain ⟨sw1, hg1, hat, hoff, hmem⟩ := hoth k2 sw hne hg
  refine ⟨sw1, hg1, hat, hoff, ?_⟩
  intro hin
  rcases List.mem_cons.mp hin with e | hin2
  · exfalso
    rcases hk with hk | hk
    · exact hne (e.trans hk)
    · rw [e, hk] at hg; cases hg
  · exact hmem hin2

theorem offOthers_spec (s : State) (order : List State) :
    ∀ (m : Machine State) (h : Heap), MachineOK m h →
      ∃ m1 h1, Machine.offOthers s order (m, h) = some (m1, h1) ∧
        OffPost s order m h m1 h1 := by
  induction order with
  | nil =>
    intro m h hm
    exact ⟨m, h, rfl, OffPost.nil s hm⟩
  | cons k rest ih =>
    intro m h hm
    by_cases hks : k = s
    · obtain ⟨m1, h1, hrun, hp⟩ := ih m h hm
      exact ⟨m1, h1, by simp [Machine.offOthers, hks, hrun], hp.skip (Or.inl hks)⟩
    · cases hg : mapGet m.states k with
      | none =>
        obtain ⟨m1, h1, hrun, hp⟩ := ih m h hm
        exact ⟨m1, h1, by simp [Machine.offOthers, hks, hg, hrun], hp.skip (Or.inr hg)⟩
      | some sw =>
        obtain ⟨sw2, h2, htr, hfr, hon2, hmono2, hctx2, _, hsame2⟩ :=
          trun_spec (hm.1 k sw hg) false
        have hfr2 : Frame h (mapGet m.states k) h2 sw2 := by rw [hg]; exact hfr
        obtain ⟨hm2, hoth2⟩ := hm.put hfr2
        obtain ⟨m1, h1, hrun, hp⟩ := ih ⟨mapPut m.states k sw2⟩ h2 hm2
        refine ⟨m1, h1, by simp [Machine.offOthers, hks, hg, Switch.TrueOff, htr, hrun], ?_⟩
        obtain ⟨h1ok, hkeys, hmono, hs, hsw, hoth⟩ := hp
        have hsk : ¬ k = s := hks
        have hgs : mapGet (mapPut m.states k sw2) s = mapGet m.states s := by
          rw [mapGet_mapPut, if_neg hsk]
        refine ⟨h1ok, ?_, fun t ht => hmono t (hmono2 t ht), ?_, ?_, ?_⟩
        · rw [hkeys]
          exact keys_mapPut_of_some hg sw2
        · rw [hs, hgs]
        · intro sws hgsw
          have hA := hoth2 s sws (fun e => hks e.symm) hgsw
          have hB := hsw sws (by rw [hgs]; exact hgsw)
          refine ⟨by rw [hB.1, hA.1], fun t ht => ?_⟩
          rw [hB.2 t ht, hA.2 t ht]
        · intro k2 swk hne hgk
          by_cases hk2 : k2 = k
          · subst hk2
            rw [hg] at hgk
            cases hgk
            have hgp : mapGet (mapPut m.states k2 sw2) k2 = some sw2 := by
              rw [mapGet_mapPut, if_pos rfl]
            obtain ⟨sw1, hg1, hat, hoff, _⟩ := hoth k2 sw2 hne hgp
            have hoff2 := hoff hon2
            refine ⟨sw1, hg1, ?_, ?_, ?_⟩
            · rw [hat]
              simpa [TokenMap.get] using hctx2
            · intro hwas
              obtain ⟨e1, e2⟩ := hsame2 hwas
              subst e1 e2
              exact hoff2
            · intro _
              exact hoff2.2.1
          · have hk2b : ¬ k = k2 := fun e => hk2 e.symm
            have hgp : mapGet (mapPut m.states k sw2) k2 = some swk := by
              rw [mapGet_mapPut, if_neg hk2b]; exact hgk
            obtain ⟨sw1, hg1, hat, hoff, hmem⟩ := hoth k2 swk hne hgp
            have hA := hoth2 k2 swk hk2 hgk
            refine ⟨sw1, hg1, hat, ?_, ?_⟩
            · intro hwas
              obtain ⟨e1, e2, e3⟩ := hoff (by rw [hA.1]; exact hwas)
              refine ⟨e1, e2, fun t ht => ?_⟩
              rw [e3 t ht, hA.2 t ht]
            · intro hin
              rcases List.mem_cons.mp hin with e | hin2
              · exact absurd e hk2
              · exact hmem hin2

theorem TransitTo_spec {m : Machine State} {h : Heap} (hm : MachineOK m h) {s : State}
    {sw : Switch} (hg : mapGet m.states s = some sw) (order : List State) :
    ∃ m1 h1, m.TransitTo order s h = some (none, m1, h1) ∧
      TransitPost s sw order m h m1 h1 := by
  obtain ⟨sw2, h2, htr, hfr, hon2, hmono2, hctx2, hfire2, hsame2⟩ :=
    trun_spec (hm.1 s sw hg) true
  have hfr2 : Frame h (mapGet m.states s) h2 sw2 := by rw [hg]; exact hfr
  obtain ⟨hm2, hoth2⟩ := hm.put hfr2
  obtain ⟨m1, h1, hrun, h1ok, hkeys, hmono, hs, hsw, hoth⟩ :=
    offOthers_spec s order ⟨mapPut m.states s sw2⟩ h2 hm2
  have hgp : mapGet (mapPut m.states s sw2) s = some sw2 := by rw [mapGet_mapPut, if_pos rfl]
  refine ⟨m1, h1, by simp [Machine.TransitTo, hg, Switch.TrueOn, htr, hrun], h1ok, ?_,
    fun t ht => hmono t (hmono2 t ht), ⟨sw2, ?_, ?_, ?_, ?_, ?_⟩, ?_⟩
  · rw [hkeys]; exact keys_mapPut_of_some hg sw2
  · rw [hs, hgp]
  · rw [(hsw sw2 hgp).1, hon2]
  · simpa [TokenMap.get] using hctx2
  · intro t ht
    exact hmono t (hfire2 t (by simpa [TokenMap.get] using ht))
  · intro hwas
    exact (hsame2 hwas).1
  · intro k swk hne hgk
    have hk : ¬ s = k := fun e => hne e.symm
    have hgk2 : mapGet (mapPut m.states s sw2) k = some swk := by
      rw [mapGet_mapPut, if_neg hk]; exact hgk
    obtain ⟨sw1, hg1, hat, hoff, hmem⟩ := hoth k swk hne hgk2
    have hA := hoth2 k swk hne hgk
    refine ⟨sw1, hg1, hat, ?_, hmem⟩
    intro hwas
    obtain ⟨e1, e2, e3⟩ := hoff (by rw [hA.1]; exact hwas)
    refine ⟨e1, e2, fun t ht => ?_⟩
    rw [e3 t ht, hA.2 t ht]

/-! ## Lemmas on `New` -/

theorem MachineOK.empty (h : Heap) : MachineOK (⟨[]⟩ : Machine State) h :=
  ⟨fun k sw hg => by simp [mapGet] at hg, fun k1 _ sw1 _ _ hg => by simp [mapGet] at hg⟩

theorem addState_of_some {m : Machine State} {s : State} {sw : Switch}
    (hg : mapGet m.states s = some sw) (b : Bool) (h : Heap) :
    m.addState s b h = (some Err.ErrStateExists, m, h) := by
  simp [Machine.addState, hg]

theorem addState_of_none {m : Machine State} {s : State}
    (hg : mapGet m.states s = none) (b : Bool) (h : Heap) :
    m.addState s b h = (none, ⟨mapPut m.states s (NewSwitch b h).1⟩, (NewSwitch b h).2) := by
  simp [Machine.addState, hg]

theorem addState_spec {m : Machine State} {h : Heap} (hm : MachineOK m h) {s : State}
    (hg : mapGet m.states s = none) (b : Bool) :
    ∃ m1 h1 sw1, m.addState s b h = (none, m1, h1) ∧ MachineOK m1 h1 ∧
      m1.keys = m.keys ++ [s] ∧ mapGet m1.states s = some sw1 ∧ sw1.isOn h1 = some b ∧
      (∀ k sw, mapGet m.states k = some sw →
        mapGet m1.states k = some sw ∧ sw.isOn h1 = sw.isOn h) := by
  obtain ⟨hfr, hon⟩ := NewSwitch_spec b h
  have hfr2 : Frame h (mapGet m.states s) (NewSwitch b h).2 (NewSwitch b h).1 := by
    rw [hg]; exact hfr
  obtain ⟨hm2, hoth2⟩ := hm.put hfr2
  refine ⟨_, _, (NewSwitch b h).1, addState_of_none hg b h, hm2, keys_mapPut_of_none hg _, ?_,
    hon, ?_⟩
  · rw [mapGet_mapPut, if_pos rfl]
  · intro k sw hgk
    have hne : k ≠ s := by
      intro e
      rw [e, hg] at hgk
      cases hgk
    have hk : ¬ s = k := fun e => hne e.symm
    exact ⟨by rw [mapGet_mapPut, if_neg hk]; exact hgk, (hoth2 k sw hne hgk).1⟩

theorem addOthers_spec (others : List State) :
    ∀ (m : Machine State) (h : Heap), MachineOK m h → others.Nodup →
      (∀ s, s ∈ others → s ∉ m.keys) →
      ∃ m1 h1, New.addOthers m others h = ((some m1, none), h1) ∧ MachineOK m1 h1 ∧
        m1.keys = m.keys ++ others ∧
        (∀ k sw, mapGet m.states k = some sw →
          ∃ sw1, mapGet m1.states k = some sw1 ∧ sw1.isOn h1 = sw.isOn h) ∧
        (∀ k, k ∈ others → ∃ sw1, mapGet m1.states k = some sw1 ∧ sw1.isOn h1 = some false) := by
  induction others with
  | nil =>
    intro m h hm _ _
    exact ⟨m, h, rfl, hm, by simp, fun k sw hg => ⟨sw, hg, rfl⟩, fun k hk => by simp at hk⟩
  | cons s rest ih =>
    intro m h hm hnd hnew
    have hg : mapGet m.states s = none :=
      (mapGet_eq_none_iff m.states s).mpr (hnew s (List.mem_cons_self s rest))
    obtain ⟨m2, h2, sw2, hadd, hm2, hkeys2, hgs2, hon2, hold2⟩ := addState_spec hm hg false
    have hnd2 : rest.Nodup := (List.nodup_cons.mp hnd).2
    have hnew2 : ∀ x, x ∈ rest → x ∉ m2.keys := by
      intro x hx hin
      rw [hkeys2] at hin
      rcases List.mem_append.mp hin with hin | hin
      · exact hnew x (List.mem_cons_of_mem s hx) hin
      · have e : x = s := by simpa using hin
        exact (List.nodup_cons.mp hnd).1 (e ▸ hx)
    obtain ⟨m1, h1, hrun, hm1, hkeys1, hold1, hnew1⟩ := ih m2 h2 hm2 hnd2 hnew2
    refine ⟨m1, h1, by simp [New.addOthers, hadd, hrun], hm1, ?_, ?_, ?_⟩
    · rw [hkeys1, hkeys2]; simp
    · intro k sw hgk
      obtain ⟨hgk2, hon⟩ := hold2 k sw hgk
      obtain ⟨sw1, hg1, hon1⟩ := hold1 k sw hgk2
      exact ⟨sw1, hg1, hon1.trans hon⟩
    · intro k hk
      rcases List.mem_cons.mp hk with e | hk2
      · subst e
        obtain ⟨sw1, hg1, hon1⟩ := hold1 k sw2 hgs2
        exact ⟨sw1, hg1, hon1.trans hon2⟩
      · exact hnew1 k hk2

theorem addOthers_fail (others : List State) :
    ∀ (m : Machine State) (h : Heap),
      (¬ others.Nodup ∨ ∃ s, s ∈ others ∧ s ∈ m.keys) →
      (New.addOthers m others h).1 = (none, some Err.ErrStateExists) := by
  induction others with
  | nil =>
    intro m h hbad
    rcases hbad with hbad | ⟨s, hs, _⟩
    · exact absurd List.nodup_nil hbad
    · simp at hs
  | cons s rest ih =>
    intro m h hbad
    cases hg : mapGet m.states s with
    | some sw => simp [New.addOthers, addState_of_some hg]
    | none =>
      have hnot : s ∉ m.keys := (mapGet_eq_none_iff m.states s).mp hg
      have hk : (⟨mapPut m.states s (NewSwitch false h).1⟩ : Machine State).keys
          = m.keys ++ [s] := keys_mapPut_of_none hg _
      have hbad2 : ¬ rest.Nodup ∨ ∃ x, x ∈ rest ∧
          x ∈ (⟨mapPut m.states s (NewSwitch false h).1⟩ : Machine State).keys := by
        rw [hk]
        rcases hbad with hbad | ⟨x, hx, hxin⟩
        · by_cases hin : s ∈ rest
          · exact Or.inr ⟨s, hin, by simp⟩
          · by_cases hr : rest.Nodup
            · exact absurd (List.nodup_cons.mpr ⟨hin, hr⟩) hbad
            · exact Or.inl hr
        · rcases List.mem_cons.mp hx with e | hx2
          · exact absurd (e ▸ hxin) hnot
          · exact Or.inr ⟨x, hx2, List.mem_append_left _ hxin⟩
      simpa [New.addOthers, addState_of_none hg] using ih _ (NewSwitch false h).2 hbad2

theorem New_spec {init : State} {others : List State} (hnd : (init :: others).Nodup)
    (h : Heap) :
    ∃ m1 h1, New init others h = ((some m1, none), h1) ∧ MachineOK m1 h1 ∧
      m1.keys = init :: others ∧
      (∃ sw1, mapGet m1.states init = some sw1 ∧ sw1.isOn h1 = some true) ∧
      (∀ k, k ∈ others → ∃ sw1, mapGet m1.states k = some sw1 ∧ sw1.isOn h1 = some false) := by
  have hg : mapGet (⟨[]⟩ : Machine State).states init = none := rfl
  obtain ⟨m2, h2, sw2, hadd, hm2, hkeys2, hgs2, hon2, _⟩ :=
    addState_spec (MachineOK.empty h) hg true
  have hkeys2b : m2.keys = [init] := by simpa [Machine.keys] using hkeys2
  have hnew : ∀ s, s ∈ others → s ∉ m2.keys := by
    intro s hs hin
    rw [hkeys2b] at hin
    have e : s = init := by simpa using hin
    exact (List.nodup_cons.mp hnd).1 (e ▸ hs)
  obtain ⟨m1, h1, hrun, hm1, hkeys1, hold1, hnew1⟩ :=
    addOthers_spec others m2 h2 hm2 (List.nodup_cons.mp hnd).2 hnew
  refine ⟨m1, h1, by simp [New, hadd, hrun], hm1, by rw [hkeys1, hkeys2b]; rfl, ?_, hnew1⟩
  obtain ⟨sw1, hg1, hon1⟩ := hold1 init sw2 hgs2
  exact ⟨sw1, hg1, hon1.trans hon2⟩

theorem New_fail {init : State} {others : List State} (hnd : ¬ (init :: others).Nodup)
    (h : Heap) : (New init others h).1 = (none, some Err.ErrStateExists) := by
  have hg : mapGet (⟨[]⟩ : Machine State).states init = none := rfl
  have hk : (⟨mapPut ([] : List (State × Switch)) init (NewSwitch true h).1⟩ :
      Machine State).keys = [init] := rfl
  have hbad : ¬ others.Nodup ∨ ∃ x, x ∈ others ∧
      x ∈ (⟨mapPut ([] : List (State × Switch)) init (NewSwitch true h).1⟩ :
        Machine State).keys := by
    rw [hk]
    by_cases hin : init ∈ others
    · exact Or.inr ⟨init, hin, by simp⟩
    · by_cases hr : others.Nodup
      · exact absurd (List.nodup_cons.mpr ⟨hin, hr⟩) hnd
      · exact Or.inl hr
  simpa [New, addState_of_none hg] using addOthers_fail others _ (NewSwitch true h).2 hbad

/-! ## Lemmas on reachable machines -/

theorem mem_keys_of_mapGet {m : Machine State} {k : State} {sw : Switch}
    (hg : mapGet m.states k = some sw) : k ∈ m.keys := by
  by_contra hc
  rw [(mapGet_eq_none_iff m.states k).mpr hc] at hg
  cases hg

theorem mapGet_of_mem_keys {m : Machine State} {k : State} (hk : k ∈ m.keys) :
    ∃ sw, mapGet m.states k = some sw := by
  cases hg : mapGet m.states k with
  | none => exact absurd hk ((mapGet_eq_none_iff m.states k).mp hg)
  | some sw => exact ⟨sw, rfl⟩

theorem IsCurrent.of_new {init : State} {others : List State} {h0 h : Heap}
    {m : Machine State} (hnew : New init others h0 = ((some m, none), h)) :
    MachineOK m h ∧ m.keys = init :: others ∧ IsCurrent m h init := by
  have hnd : (init :: others).Nodup := by
    by_contra hc
    have hf := New_fail hc h0
    rw [hnew] at hf
    cases hf
  obtain ⟨m1, h1, hrun, hm1, hkeys, ⟨swi, hgi, honi⟩, hoff⟩ := New_spec hnd h0
  rw [hnew] at hrun
  cases hrun
  refine ⟨hm1, hkeys, by rw [hkeys]; exact List.mem_cons_self _ _, ?_⟩
  intro k sw hg
  have hk : k ∈ init :: others := hkeys ▸ mem_keys_of_mapGet hg
  rcases List.mem_cons.mp hk with e | hk2
  · subst e
    rw [hgi] at hg
    cases hg
    simpa [Switch.IsOn] using honi
  · obtain ⟨sw1, hg1, hon1⟩ := hoff k hk2
    rw [hg1] at hg
    cases hg
    have hne : ¬ k = init := fun e => (List.nodup_cons.mp hnd).1 (e ▸ hk2)
    simpa [Switch.IsOn, hne] using hon1

theorem IsCurrent.of_transit {m m1 : Machine State} {h h1 : Heap} {s : State} {sw : Switch}
    {order : List State} (hperm : order.Perm m.keys)
    (hp : TransitPost s sw order m h m1 h1) (hg : mapGet m.states s = some sw) :
    IsCurrent m1 h1 s := by
  obtain ⟨_, hkeys, _, ⟨sws, hgs, hons, _⟩, hoth⟩ := hp
  refine ⟨by rw [hkeys]; exact mem_keys_of_mapGet hg, ?_⟩
  intro k swk hgk
  by_cases hk : k = s
  · subst hk
    rw [hgs] at hgk
    cases hgk
    simpa [Switch.IsOn] using hons
  · have hin : k ∈ m.keys := hkeys ▸ mem_keys_of_mapGet hgk
    obtain ⟨sw0, hg0⟩ := mapGet_of_mem_keys hin
    obtain ⟨sw1, hg1, _, _, hoff⟩ := hoth k sw0 hk hg0
    rw [hg1] at hgk
    cases hgk
    simpa [Switch.IsOn, hk] using hoff (hperm.mem_iff.mpr hin)

theorem TransitTo_of_none {m : Machine State} {s : State} (hg : mapGet m.states s = none)
    (order : List State) (h : Heap) :
    m.TransitTo order s h = some (some Err.ErrStateNotExists, m, h) := by
  simp [Machine.TransitTo, hg]

theorem Reachable.inv {init : State} {others : List State} {h0 : Heap}
    {tr : List (State × Option Err)} {p : Machine State × Heap}
    (hr : Reachable init others h0 tr p) :
    MachineOK p.1 p.2 ∧ p.1.keys = init :: others ∧ IsCurrent p.1 p.2 (lastSuccess init tr) := by
  induction hr with
  | new m h hnew => exact IsCurrent.of_new hnew
  | transit tr m h order s err m1 h1 _ hperm hstep ih =>
    obtain ⟨hm, hkeys, hcur⟩ := ih
    cases hg : mapGet m.states s with
    | none =>
      rw [TransitTo_of_none hg] at hstep
      cases hstep
      exact ⟨hm, hkeys, hcur⟩
    | some sw =>
      obtain ⟨m2, h2, hrun, hp⟩ := TransitTo_spec hm hg order
      rw [hrun] at hstep
      cases hstep
      exact ⟨hp.1, hp.2.1.trans hkeys, IsCurrent.of_transit hperm hp hg⟩

theorem CurrentState_of_isCurrent {m : Machine State} {h : Heap} {cur : State}
    (hcur : IsCurrent m h cur) (order : List State) (hin : cur ∈ order) :
    m.CurrentState order h = some cur := by
  induction order with
  | nil => simp at hin
  | cons k rest ih =>
    cases hg : mapGet m.states k with
    | none =>
      have hne : cur ≠ k := by
        intro e
        obtain ⟨sw, hs⟩ := mapGet_of_mem_keys hcur.1
        rw [e, hg] at hs
        cases hs
      have hin2 : cur ∈ rest := by
        rcases List.mem_cons.mp hin with e | h2
        · exact absurd e hne
        · exact h2
      simp [Machine.CurrentState, hg, ih hin2]
    | some sw =>
      have hon := hcur.2 k sw hg
      by_cases hk : k = cur
      · subst hk
        simp [Machine.CurrentState, hg, hon]
      · have hin2 : cur ∈ rest := by
          rcases List.mem_cons.mp hin with e | h2
          · exact absurd e.symm hk
          · exact h2
        simp [Machine.CurrentState, hg, hon, hk, ih hin2]

theorem Reachable.transit_total {init : State} {others : List State} {h0 : Heap}
    {tr : List (State × Option Err)} {m : Machine State} {h : Heap}
    (hr : Reachable init others h0 tr (m, h)) (order : List State) (s : State) :
    ∃ err m1 h1, m.TransitTo order s h = some (err, m1, h1) := by
  cases hg : mapGet m.states s with
  | none => exact ⟨_, _, _, TransitTo_of_none hg order h⟩
  | some sw =>
    obtain ⟨m1, h1, hrun, _⟩ := TransitTo_spec hr.inv.1 hg order
    exact ⟨_, _, _, hrun⟩

theorem runTransits_spec {init : State} {others : List State} {h0 : Heap}
    (calls : List (List State × State)) :
    ∀ (tr : List (State × Option Err)) (m : Machine State) (h : Heap),
      Reachable init others h0 tr (m, h) →
      (∀ c, c ∈ calls → c.1.Perm (init :: others)) →
      ∃ tr1 m1 h1, Machine.runTransits calls tr (m, h) = some (tr1, m1, h1) ∧
        Reachable init others h0 tr1 (m1, h1) := by
  induction calls with
  | nil =>
    intro tr m h hr _
    exact ⟨tr, m, h, rfl, hr⟩
  | cons c rest ih =>
    obtain ⟨order, s⟩ := c
    intro tr m h hr hord
    obtain ⟨err, m1, h1, hstep⟩ := hr.transit_total order s
    have hperm : order.Perm m.keys := by
      have hk : m.keys = init :: others := hr.inv.2.1
      rw [hk]
      exact hord (order, s) (List.mem_cons_self _ _)
    have hr1 := Reachable.transit tr m h order s err m1 h1 hr hperm hstep
    obtain ⟨tr2, m2, h2, hrun, hr2⟩ :=
      ih ((s, err) :: tr) m1 h1 hr1 (fun c hc => hord c (List.mem_cons_of_mem _ hc))
    exact ⟨tr2, m2, h2, by simp [Machine.runTransits, hstep, hrun], hr2⟩

theorem runCalls_spec (calls : List Bool) :
    ∀ (b : Bool) (sw : Switch) (h : Heap), SwitchOK h sw → sw.isOn h = some b →
      ∃ sw1 h1, Switch.runCalls calls (sw, h) = some (sw1, h1) ∧ SwitchOK h1 sw1 ∧
        sw1.isOn h1 = some (calls.getLast?.getD b) := by
  induction calls with
  | nil =>
    intro b sw h hok hon
    exact ⟨sw, h, rfl, hok, by simpa using hon⟩
  | cons c rest ih =>
    intro b sw h hok hon
    obtain ⟨sw2, h2, htr, hfr, hon2, _⟩ := trun_spec hok c
    obtain ⟨sw1, h1, hrun, hok1, hon1⟩ := ih c sw2 h2 hfr.1 hon2
    have hlast : (c :: rest).getLast?.getD b = rest.getLast?.getD c := by
      cases rest with
      | nil => rfl
      | cons r rs => simp [List.getLast?_cons_cons, List.getLast?_eq_getLast]
    refine ⟨sw1, h1, ?_, hok1, by rw [hlast]; exact hon1⟩
    cases c <;> simp [Switch.runCalls, Switch.TrueOn, Switch.TrueOff, htr, hrun]

/-! ## The claims -/

/-- C1, single-active-state invariant: on the machine that a successful `New init others`
returns, every finite sequence of `TransitTo` calls (any targets, each call ranging over the
registered states in any order) runs to its end without a panic, and afterwards exactly one
registered state has a switch whose `IsOn` is true, while no `IsOn` panics.  The empty
sequence is the machine as constructed, and every prefix of a sequence is a sequence. -/
theorem single_active_state (init : State) (others : List State) (h0 h : Heap)
    (m : Machine State) (calls : List (List State × State))
    (hnew : New init others h0 = ((some m, none), h))
    (hord : ∀ c, c ∈ calls → c.1.Perm (init :: others)) :
    ∃ tr m1 h1, Machine.runTransits calls [] (m, h) = some (tr, m1, h1) ∧
      (∃! k, ∃ sw, mapGet m1.states k = some sw ∧ sw.IsOn h1 = some true) ∧
      (∀ k sw, mapGet m1.states k = some sw → sw.IsOn h1 ≠ none) := by
  obtain ⟨tr, m1, h1, hrun, hr⟩ :=
    runTransits_spec calls [] m h (Reachable.new m h hnew) hord
  obtain ⟨_, _, hin, hcur⟩ := hr.inv
  refine ⟨tr, m1, h1, hrun, ?_, ?_⟩
  · obtain ⟨sw, hg⟩ := mapGet_of_mem_keys hin
    refine ⟨lastSuccess init tr, ⟨sw, hg, by simpa using hcur _ sw hg⟩, ?_⟩
    rintro k ⟨swk, hgk, honk⟩
    have hk := hcur k swk hgk
    rw [honk] at hk
    simpa using hk
  · intro k sw hg hnone
    have hk := hcur k sw hg
    rw [hnone] at hk
    cases hk

/-- C2, `CurrentState` tracks the last successful transition: after a successful
`New init others` and any finite sequence of `TransitTo` calls, which runs to its end,
`CurrentState` returns (no panic) the target of the most recent call that returned nil, or
`init` when no call did, whatever the order in which it ranges over the state map. -/
theorem current_state_tracks (init : State) (others : List State) (h0 h : Heap)
    (m : Machine State) (calls : List (List State × State)) (order : List State)
    (hnew : New init others h0 = ((some m, none), h))
    (hord : ∀ c, c ∈ calls → c.1.Perm (init :: others))
    (hperm : order.Perm (init :: others)) :
    ∃ tr m1 h1, Machine.runTransits calls [] (m, h) = some (tr, m1, h1) ∧
      m1.CurrentState order h1 = some (lastSuccess init tr) := by
  obtain ⟨tr, m1, h1, hrun, hr⟩ :=
    runTransits_spec calls [] m h (Reachable.new m h hnew) hord
  obtain ⟨_, hkeys, hcur⟩ := hr.inv
  refine ⟨tr, m1, h1, hrun, CurrentState_of_isCurrent hcur order ?_⟩
  have hin : lastSuccess init tr ∈ m1.keys := hcur.1
  rw [hkeys] at hin
  exact hperm.mem_iff.mpr hin

/-- C3, `New` fails exactly on duplicates: either `init :: others` has no duplicate and `New`
returns a machine with a nil error, or it has one and `New` returns nil with
`ErrStateExists`. -/
theorem new_fails_exactly_on_duplicates (init : State) (others : List State) (h : Heap) :
    ((init :: others).Nodup ∧ ∃ m, (New init others h).1 = (some m, none)) ∨
      (¬ (init :: others).Nodup ∧ (New init others h).1 = (none, some Err.ErrStateExists)) := by
  by_cases hnd : (init :: others).Nodup
  · obtain ⟨m1, h1, hrun, _⟩ := New_spec hnd h
    exact Or.inl ⟨hnd, m1, by rw [hrun]⟩
  · exact Or.inr ⟨hnd, New_fail hnd h⟩

/-- C4, transit to an unregistered state is rejected atomically: on every machine (reachable
or not) `TransitTo z` for a state `z` that is not registered returns `ErrStateNotExists` and
hands back the very same machine and heap: the registered states, every switch and the
cancelled status of every context are as before, hence so is `CurrentState`. -/
theorem transit_unregistered_unchanged (m : Machine State) (order : List State) (z : State)
    (h : Heap) (hz : z ∉ m.keys) :
    m.TransitTo order z h = some (some Err.ErrStateNotExists, m, h) :=
  TransitTo_of_none ((mapGet_eq_none_iff m.states z).mpr hz) order h

/-- C5, postcondition of a successful transit: on a reachable machine `TransitTo s` for a
registered `s` returns nil; afterwards the registered states are the same, the switch of `s`
is ON and the switch of every other registered state is OFF. -/
theorem transit_postcondition (init : State) (others : List State) (h0 : Heap)
    (tr : List (State × Option Err)) (m : Machine State) (h : Heap) (order : List State)
    (s : State) (hr : Reachable init others h0 tr (m, h)) (hs : s ∈ m.keys)
    (hperm : order.Perm m.keys) :
    ∃ m1 h1, m.TransitTo order s h = some (none, m1, h1) ∧ m1.keys = m.keys ∧
      (∃ sw, mapGet m1.states s = some sw ∧ sw.IsOn h1 = some true) ∧
      (∀ k, k ∈ m.keys → k ≠ s → ∃ sw, mapGet m1.states k = some sw ∧
        sw.IsOn h1 = some false) := by
  obtain ⟨sw, hg⟩ := mapGet_of_mem_keys hs
  obtain ⟨m1, h1, hrun, hp⟩ := TransitTo_spec hr.inv.1 hg order
  have hcur := IsCurrent.of_transit hperm hp hg
  refine ⟨m1, h1, hrun, hp.2.1, ?_, ?_⟩
  · obtain ⟨sw1, hg1⟩ := mapGet_of_mem_keys hcur.1
    exact ⟨sw1, hg1, by simpa using hcur.2 s sw1 hg1⟩
  · intro k hk hne
    have hk1 : k ∈ m1.keys := by rw [hp.2.1]; exact hk
    obtain ⟨sw1, hg1⟩ := mapGet_of_mem_keys hk1
    exact ⟨sw1, hg1, by simpa [hne] using hcur.2 k sw1 hg1⟩

/-- C6, edge delivery on transit: on a reachable machine whose current state is `A`, for a
registered `B` other than `A`, the channel `WaitForState` selects on for `B` and the channel
`WaitForStateToPass` selects on for `A`, both read before `TransitTo B`, are open before the
call (a wait whose context is not cancelled blocks) and closed once it has completed (such
a wait returns nil). -/
theorem edge_delivery (init : State) (others : List State) (h0 : Heap)
    (tr : List (State × Option Err)) (m : Machine State) (h : Heap)
    (order0 order : List State) (A B : State)
    (hr : Reachable init others h0 tr (m, h))
    (hperm0 : order0.Perm m.keys) (hcurA : m.CurrentState order0 h = some A)
    (hB : B ∈ m.keys) (hne : B ≠ A) (hperm : order.Perm m.keys) :
    ∃ cB cA m1 h1, m.waitChan B ON = some (Sum.inr cB) ∧
      m.waitChan A OFF = some (Sum.inr cA) ∧
      h.isDone cB = false ∧ h.isDone cA = false ∧
      (∀ pick, selectWait none cB pick h = WaitResult.blocked ∧
        selectWait none cA pick h = WaitResult.blocked) ∧
      m.TransitTo order B h = some (none, m1, h1) ∧
      h1.isDone cB = true ∧ h1.isDone cA = true ∧
      (∀ pick, selectWait none cB pick h1 = WaitResult.returned none ∧
        selectWait none cA pick h1 = WaitResult.returned none) := by
  obtain ⟨hm, _, hcur⟩ := hr.inv
  have hA : A = lastSuccess init tr := by
    have hc := CurrentState_of_isCurrent hcur order0 (hperm0.mem_iff.mpr hcur.1)
    rw [hcurA] at hc
    exact Option.some.inj hc
  rw [← hA] at hcur
  obtain ⟨swA, hgA⟩ := mapGet_of_mem_keys hcur.1
  obtain ⟨swB, hgB⟩ := mapGet_of_mem_keys hB
  have honA : swA.isOn h = some true := by simpa [Switch.IsOn] using hcur.2 A swA hgA
  have honB : swB.isOn h = some false := by simpa [Switch.IsOn, hne] using hcur.2 B swB hgB
  obtain ⟨aA, bA, hcA, hionA, _⟩ := (hm.1 A swA hgA).isOn_eq
  obtain ⟨aB, bB, hcB, hionB, hdB⟩ := (hm.1 B swB hgB).isOn_eq
  have hdaA : h.isDone aA = false := by
    rw [honA] at hionA
    simpa using hionA
  have hdaB : h.isDone aB = true := by
    rw [honB] at hionB
    simpa using hionB
  have hdbB : h.isDone bB = false := by rw [hdB, hdaB]; rfl
  obtain ⟨m1, h1, hrun, _, _, _, ⟨_, _, _, _, hfire, _⟩, hoth⟩ := TransitTo_spec hm hgB order
  have hfB : h1.isDone bB = true := hfire bB (by rw [hcB])
  have hfA : h1.isDone aA = true := by
    obtain ⟨sw1, hg1, hat, _, hoff⟩ := hoth A swA (fun e => hne e.symm) hgA
    have hoff1 := hoff (hperm.mem_iff.mpr hcur.1)
    have hat1 : sw1.context.atOn = some aA := by rw [hat, hcA]
    simpa [Switch.isOn, TokenMap.get, hat1] using hoff1
  refine ⟨bB, aA, m1, h1, ?_, ?_, hdbB, hdaA, ?_, hrun, hfB, hfA, ?_⟩
  · simp [Machine.waitChan, hgB, Switch.On, TokenMap.get, hcB]
  · simp [Machine.waitChan, hgA, Switch.Off, TokenMap.get, hcA]
  · intro pick
    simp [selectWait, hdbB, hdaA]
  · intro pick
    simp [selectWait, hfB, hfA]

/-- C7 as amended, a wait with a context that is already cancelled: on a reachable machine,
for a registered `B` and a context cancelled with error `e`, `WaitForState` returns that
error when `B` is not the current state; when `B` is the current state both cases of the
`select` are ready and the call returns the error or nil, as the `select` picks.  The machine
is left as it was. -/
theorem cancelled_wait (init : State) (others : List State) (h0 : Heap)
    (tr : List (State × Option Err)) (m : Machine State) (h : Heap)
    (order : List State) (B : State) (e : CtxErr) (pick : Bool)
    (hr : Reachable init others h0 tr (m, h))
    (hperm : order.Perm m.keys) (hB : B ∈ m.keys) :
    (m.CurrentState order h ≠ some B →
      m.WaitForState (some e) B pick h
        = some (WaitResult.returned (some (Err.ofContext e)), m, h)) ∧
    (m.CurrentState order h = some B →
      m.WaitForState (some e) B pick h
        = some (WaitResult.returned (if pick then some (Err.ofContext e) else none), m, h)) := by
  obtain ⟨hm, _, hcur⟩ := hr.inv
  have hc := CurrentState_of_isCurrent hcur order (hperm.mem_iff.mpr hcur.1)
  obtain ⟨swB, hgB⟩ := mapGet_of_mem_keys hB
  obtain ⟨aB, bB, hcB, hionB, hdB⟩ := (hm.1 B swB hgB).isOn_eq
  have honB := hcur.2 B swB hgB
  simp only [Switch.IsOn] at honB
  rw [hionB] at honB
  have hch : m.waitChan B ON = some (Sum.inr bB) := by
    simp [Machine.waitChan, hgB, Switch.On, TokenMap.get, hcB]
  constructor
  · intro hnot
    have hne : ¬ B = lastSuccess init tr := by
      intro e1
      exact hnot (by rw [hc, e1])
    have hda : h.isDone aB = true := by simpa [hne] using honB
    have hdb : h.isDone bB = false := by rw [hdB, hda]; rfl
    simp [Machine.WaitForState, Machine.waitForState, hch, selectWait, hdb]
  · intro his
    have heq : B = lastSuccess init tr := by
      rw [hc] at his
      exact (Option.some.inj his).symm
    have hda : h.isDone aB = false := by simpa [heq] using honB
    have hdb : h.isDone bB = true := by rw [hdB, hda]; rfl
    cases pick <;> simp [Machine.WaitForState, Machine.waitForState, hch, selectWait, hdb]

/-- C8, waiting on an unregistered state is rejected before any waiting: on every machine
(reachable or not), for a state `s` that is not registered, `WaitForState` and
`WaitForStateToPass` return `ErrStateNotExists` whatever the context and the choice of the
`select`, and leave machine and heap as they were. -/
theorem wait_unregistered (m : Machine State) (ctx : Option CtxErr) (s : State)
    (pick : Bool) (h : Heap) (hs : s ∉ m.keys) :
    m.WaitForState ctx s pick h
        = some (WaitResult.returned (some Err.ErrStateNotExists), m, h) ∧
      m.WaitForStateToPass ctx s pick h
        = some (WaitResult.returned (some Err.ErrStateNotExists), m, h) := by
  have hg : mapGet m.states s = none := (mapGet_eq_none_iff m.states s).mpr hs
  constructor <;>
    simp [Machine.WaitForState, Machine.WaitForStateToPass, Machine.waitForState,
      Machine.waitChan, hg]

/-- C9, construction postcondition: when `init :: others` has no duplicate, `New` returns a
machine whose registered states are exactly `init :: others`, with the switch of `init` ON
and the switch of every state of `others` OFF. -/
theorem construction_postcondition (init : State) (others : List State) (h0 : Heap)
    (hnd : (init :: others).Nodup) :
    ∃ m h, New init others h0 = ((some m, none), h) ∧ m.keys = init :: others ∧
      (∃ sw, mapGet m.states init = some sw ∧ sw.IsOn h = some true) ∧
      (∀ s, s ∈ others → ∃ sw, mapGet m.states s = some sw ∧ sw.IsOn h = some false) := by
  obtain ⟨m1, h1, hrun, _, hkeys, hon, hoff⟩ := New_spec hnd h0
  exact ⟨m1, h1, hrun, hkeys, hon, hoff⟩

end

/-- C10, a switch holds the last value set: any finite sequence of `TrueOn` / `TrueOff`
calls on `NewSwitch b` runs to its end, and `IsOn` then is the value of the last call, or
`b` for the empty sequence. -/
theorem switch_holds_last_value (b : Bool) (h : Heap) (calls : List Bool) :
    ∃ sw1 h1, Switch.runCalls calls (NewSwitch b h) = some (sw1, h1) ∧
      sw1.IsOn h1 = some (calls.getLast?.getD b) := by
  obtain ⟨hfr, hon⟩ := NewSwitch_spec b h
  obtain ⟨sw1, h1, hrun, _, hon1⟩ := runCalls_spec calls b _ _ hfr.1 hon
  exact ⟨sw1, h1, hrun, hon1⟩

/-! ## The claims at a concrete machine -/

theorem single_active_state_witness :
    New (0 : Nat) [1, 2] ⟨[]⟩ = ((some demoMachine, none), demoHeap) ∧
      ∃ tr m1 h1,
        Machine.runTransits [([2, 1, 0], 1), ([0, 1, 2], 7), ([1, 0, 2], 2)] []
          (demoMachine, demoHeap) = some (tr, m1, h1) ∧
        (∃! k, ∃ sw, mapGet m1.states k = some sw ∧ sw.IsOn h1 = some true) ∧
        (∀ k sw, mapGet m1.states k = some sw → sw.IsOn h1 ≠ none) :=
  ⟨by decide,
    single_active_state 0 [1, 2] ⟨[]⟩ demoHeap demoMachine
      [([2, 1, 0], 1), ([0, 1, 2], 7), ([1, 0, 2], 2)] (by decide) (by decide)⟩

theorem current_state_tracks_witness :
    New (0 : Nat) [1, 2] ⟨[]⟩ = ((some demoMachine, none), demoHeap) ∧
      ∃ tr m1 h1,
        Machine.runTransits [([2, 1, 0], 1), ([0, 1, 2], 7)] [] (demoMachine, demoHeap)
          = some (tr, m1, h1) ∧
        m1.CurrentState [2, 0, 1] h1 = some (lastSuccess 0 tr) :=
  ⟨by decide,
    current_state_tracks 0 [1, 2] ⟨[]⟩ demoHeap demoMachine [([2, 1, 0], 1), ([0, 1, 2], 7)]
      [2, 0, 1] (by decide) (by decide) (by decide)⟩

theorem transit_unregistered_unchanged_witness :
    (7 : Nat) ∉ demoMachine.keys ∧
      demoMachine.TransitTo [2, 1, 0] 7 demoHeap
        = some (some Err.ErrStateNotExists, demoMachine, demoHeap) :=
  ⟨by decide, transit_unregistered_unchanged demoMachine [2, 1, 0] 7 demoHeap (by decide)⟩

theorem transit_postcondition_witness :
    Reachable (0 : Nat) [1, 2] ⟨[]⟩ [] (demoMachine, demoHeap) ∧
      ∃ m1 h1, demoMachine.TransitTo [2, 1, 0] 1 demoHeap = some (none, m1, h1) ∧
        m1.keys = demoMachine.keys ∧
        (∃ sw, mapGet m1.states 1 = some sw ∧ sw.IsOn h1 = some true) ∧
        (∀ k, k ∈ demoMachine.keys → k ≠ 1 → ∃ sw, mapGet m1.states k = some sw ∧
          sw.IsOn h1 = some false) :=
  ⟨Reachable.new demoMachine demoHeap (by decide),
    transit_postcondition 0 [1, 2] ⟨[]⟩ [] demoMachine demoHeap [2, 1, 0] 1
      (Reachable.new demoMachine demoHeap (by decide)) (by decide) (by decide)⟩

theorem edge_delivery_witness :
    Reachable (0 : Nat) [1, 2] ⟨[]⟩ [] (demoMachine, demoHeap) ∧
      demoMachine.CurrentState [0, 1, 2] demoHeap = some 0 ∧
      ∃ cB cA m1 h1, demoMachine.waitChan 1 ON = some (Sum.inr cB) ∧
        demoMachine.waitChan 0 OFF = some (Sum.inr cA) ∧
        demoHeap.isDone cB = false ∧ demoHeap.isDone cA = false ∧
        (∀ pick, selectWait none cB pick demoHeap = WaitResult.blocked ∧
          selectWait none cA pick demoHeap = WaitResult.blocked) ∧
        demoMachine.TransitTo [2, 1, 0] 1 demoHeap = some (none, m1, h1) ∧
        h1.isDone cB = true ∧ h1.isDone cA = true ∧
        (∀ pick, selectWait none cB pick h1 = WaitResult.returned none ∧
          selectWait none cA pick h1 = WaitResult.returned none) :=
  ⟨Reachable.new demoMachine demoHeap (by decide), by decide,
    edge_delivery 0 [1, 2] ⟨[]⟩ [] demoMachine demoHeap [0, 1, 2] [2, 1, 0] 0 1
      (Reachable.new demoMachine demoHeap (by decide)) (by decide) (by decide) (by decide)
      (by decide) (by decide)⟩

/-- C7 as stated fails: `New 0 [1, 2]` leaves state `0` current, and `WaitForState` for `0`
with a cancelled context returns nil, not the context's error, when the `select` picks the
channel of the switch, which is closed as well. -/
theorem cancelled_wait_counterexample :
    Reachable (0 : Nat) [1, 2] ⟨[]⟩ [] (demoMachine, demoHeap) ∧
      (0 : Nat) ∈ demoMachine.keys ∧
      demoMachine.WaitForState (some CtxErr.Canceled) 0 false demoHeap
        = some (WaitResult.returned none, demoMachine, demoHeap) ∧
      demoMachine.WaitForState (some CtxErr.Canceled) 0 false demoHeap
        ≠ some (WaitResult.returned (some (Err.ofContext CtxErr.Canceled)),
            demoMachine, demoHeap) :=
  ⟨Reachable.new demoMachine demoHeap (by decide), by decide, by decide, by decide⟩

theorem cancelled_wait_witness :
    Reachable (0 : Nat) [1, 2] ⟨[]⟩ [] (demoMachine, demoHeap) ∧
      (demoMachine.CurrentState [0, 1, 2] demoHeap ≠ some 1 →
        demoMachine.WaitForState (some CtxErr.Canceled) 1 false demoHeap
          = some (WaitResult.returned (some (Err.ofContext CtxErr.Canceled)),
              demoMachine, demoHeap)) ∧
      (demoMachine.CurrentState [0, 1, 2] demoHeap = some 1 →
        demoMachine.WaitForState (some CtxErr.Canceled) 1 false demoHeap
          = some (WaitResult.returned
              (if false then some (Err.ofContext CtxErr.Canceled) else none),
              demoMachine, demoHeap)) :=
  ⟨Reachable.new demoMachine demoHeap (by decide),
    cancelled_wait 0 [1, 2] ⟨[]⟩ [] demoMachine demoHeap [0, 1, 2] 1 CtxErr.Canceled false
      (Reachable.new demoMachine demoHeap (by decide)) (by decide) (by decide)⟩

theorem wait_unregistered_witness :
    (7 : Nat) ∉ demoMachine.keys ∧
      demoMachine.WaitForState (some CtxErr.Canceled) 7 true demoHeap
          = some (WaitResult.returned (some Err.ErrStateNotExists), demoMachine, demoHeap) ∧
      demoMachine.WaitForStateToPass (some CtxErr.Canceled) 7 true demoHeap
          = some (WaitResult.returned (some Err.ErrStateNotExists), demoMachine, demoHeap) :=
  ⟨by decide,
    wait_unregistered demoMachine (some CtxErr.Canceled) 7 true demoHeap (by decide)⟩

theorem construction_postcondition_witness :
    ((0 : Nat) :: [1, 2]).Nodup ∧
      ∃ m h, New (0 : Nat) [1, 2] ⟨[]⟩ = ((some m, none), h) ∧ m.keys = 0 :: [1, 2] ∧
        (∃ sw, mapGet m.states 0 = some sw ∧ sw.IsOn h = some true) ∧
        (∀ s, s ∈ [1, 2] → ∃ sw, mapGet m.states s = some sw ∧ sw.IsOn h = some false) :=
  ⟨by decide, construction_postcondition 0 [1, 2] ⟨[]⟩ (by decide)⟩

/-! ## Further lemmas on a switch -/

theorem Heap.cancel_comm (h : Heap) (c d : Nat) :
    (h.cancel c).cancel d = (h.cancel d).cancel c := by
  by_cases hcd : c = d
  · rw [hcd]
  · simp only [Heap.cancel]
    rw [List.set_comm true true h.ctxs hcd]

theorem trun_fires_only {sw sw1 : Switch} {h h1 : Heap} {on' : Bool}
    (htr : sw.trun on' h = some (sw1, h1)) (t : Nat) (ht : h1.isDone t = true) :
    h.isDone t = true ∨ sw.cancel.get (!on') = some t := by
  unfold Switch.trun at htr
  cases hon : sw.isOn h with
  | none => simp [hon] at htr
  | some cur =>
    by_cases hc : cur = on'
    · simp [hon, hc] at htr
      rw [htr.2]
      exact Or.inl ht
    · cases hk : sw.cancel.get (!on') with
      | none => simp [hon, hc, hk] at htr
      | some c =>
        simp [hon, hc, hk] at htr
        rw [← htr.2, Heap.isDone_cancel, Heap.isDone_WithCancel] at ht
        by_cases htc : t = c
        · exact Or.inr (by rw [htc])
        · exact Or.inl (by simpa [htc] using ht)

theorem reachable_switch (b : Bool) (h0 : Heap) (calls : List Bool) :
    ∃ sw h, Switch.runCalls calls (NewSwitch b h0) = some (sw, h) ∧ SwitchOK h sw := by
  obtain ⟨hfr, hon⟩ := NewSwitch_spec b h0
  obtain ⟨sw1, h1, hrun, hok, _⟩ := runCalls_spec calls b _ _ hfr.1 hon
  exact ⟨sw1, h1, hrun, hok⟩

theorem runCalls_replicate {sw : Switch} {h : Heap} {v : Bool} (hon : sw.isOn h = some v)
    (n : Nat) : Switch.runCalls (List.replicate n v) (sw, h) = some (sw, h) := by
  induction n with
  | zero => rfl
  | succ n ih =>
    cases v <;>
      simp [List.replicate_succ, Switch.runCalls, Switch.TrueOn, Switch.TrueOff,
        trun_same hon, ih]

/-! ## The claims on a switch -/

/-- C11, setting a switch to the value it has is a no-op: on every switch that `NewSwitch`
and `TrueOn` / `TrueOff` calls produce, when `IsOn` is true the channel of `Off()` is open and
`TrueOn` hands back the very same switch and heap (no context is cancelled, none is created
or installed), and when `IsOn` is false the same holds of `On()` and `TrueOff`. -/
theorem same_value_is_noop (b : Bool) (h0 : Heap) (calls : List Bool) :
    ∃ sw h, Switch.runCalls calls (NewSwitch b h0) = some (sw, h) ∧
      (sw.IsOn h = some true →
        ∃ c, sw.Off = some c ∧ h.isDone c = false ∧ sw.TrueOn h = some (sw, h)) ∧
      (sw.IsOn h = some false →
        ∃ c, sw.On = some c ∧ h.isDone c = false ∧ sw.TrueOff h = some (sw, h)) := by
  obtain ⟨sw, h, hrun, hok⟩ := reachable_switch b h0 calls
  obtain ⟨a, c, hc, hion, hd⟩ := hok.isOn_eq
  refine ⟨sw, h, hrun, ?_, ?_⟩
  · intro hon
    have hon1 : sw.isOn h = some true := hon
    have hon2 := hon1
    rw [hion] at hon2
    refine ⟨a, by simp [Switch.Off, TokenMap.get, hc], by simpa using hon2, trun_same hon1⟩
  · intro hon
    have hon1 : sw.isOn h = some false := hon
    have hon2 := hon1
    rw [hion] at hon2
    have hda : h.isDone a = true := by simpa using hon2
    refine ⟨c, by simp [Switch.On, TokenMap.get, hc], by rw [hd, hda]; rfl, trun_same hon1⟩

/-- C12, a wait for ON is woken by `TrueOn` and only by it: on every switch that `NewSwitch`
and `TrueOn` / `TrueOff` calls produce, the channel `On()` returns is closed once a `TrueOn`
has completed, and a `TrueOff` leaves it as it was, open if it was open. -/
theorem on_wait_woken_by_TrueOn (b : Bool) (h0 : Heap) (calls : List Bool) :
    ∃ sw h c, Switch.runCalls calls (NewSwitch b h0) = some (sw, h) ∧ sw.On = some c ∧
      (∃ sw1 h1, sw.TrueOn h = some (sw1, h1) ∧ h1.isDone c = true) ∧
      (∃ sw2 h2, sw.TrueOff h = some (sw2, h2) ∧ h2.isDone c = h.isDone c) := by
  obtain ⟨sw, h, hrun, hok⟩ := reachable_switch b h0 calls
  obtain ⟨a, c, hc, hk, _, _, hd⟩ := id hok
  have hOn : sw.On = some c := by simp [Switch.On, TokenMap.get, hc]
  refine ⟨sw, h, c, hrun, hOn, ?_, ?_⟩
  · obtain ⟨sw1, h1, htr, _, _, _, _, hfire, _⟩ := trun_spec hok true
    exact ⟨sw1, h1, htr, hfire c (by simp [TokenMap.get, hc])⟩
  · obtain ⟨sw2, h2, htr, _, _, hmono, _⟩ := trun_spec hok false
    refine ⟨sw2, h2, htr, ?_⟩
    cases hdc : h.isDone c with
    | true => exact hmono c hdc
    | false =>
      cases hd2 : h2.isDone c with
      | false => rfl
      | true =>
        exfalso
        rcases trun_fires_only htr c hd2 with hold | hcan
        · rw [hdc] at hold
          cases hold
        · have hac : a = c := by simpa [TokenMap.get, hk] using hcan
          rw [hac, hdc] at hd
          cases hd

/-- C13, the switch re-arms after a full flip cycle: on every switch that `NewSwitch` and
`TrueOn` / `TrueOff` calls produce, after `TrueOn; TrueOff; TrueOn` the value of `IsOn` is
true and the channel `Off()` then returns is open; it is still open after `n` further
`TrueOn` calls, and closed after the `TrueOff` that follows them. -/
theorem rearm_after_cycle (b : Bool) (h0 : Heap) (calls : List Bool) (n : Nat) :
    ∃ sw h sw3 h3 c, Switch.runCalls calls (NewSwitch b h0) = some (sw, h) ∧
      Switch.runCalls [true, false, true] (sw, h) = some (sw3, h3) ∧
      sw3.IsOn h3 = some true ∧ sw3.Off = some c ∧ h3.isDone c = false ∧
      ∃ sw4 h4, Switch.runCalls (List.replicate n true) (sw3, h3) = some (sw4, h4) ∧
        h4.isDone c = false ∧
        ∃ sw5 h5, sw4.TrueOff h4 = some (sw5, h5) ∧ h5.isDone c = true := by
  obtain ⟨sw, h, hrun, hok⟩ := reachable_switch b h0 calls
  obtain ⟨_, _, _, hv, _⟩ := hok.isOn_eq
  obtain ⟨sw3, h3, hrun3, hok3, hon3⟩ := runCalls_spec [true, false, true] _ sw h hok hv
  have hon3b : sw3.isOn h3 = some true := by simpa using hon3
  obtain ⟨a, c, hc, hion, _⟩ := hok3.isOn_eq
  have hda : h3.isDone a = false := by
    rw [hion] at hon3b
    simpa using hon3b
  obtain ⟨sw5, h5, htr, _, _, _, _, hfire, _⟩ := trun_spec hok3 false
  exact ⟨sw, h, sw3, h3, a, hrun, hrun3, hon3b, by simp [Switch.Off, TokenMap.get, hc], hda,
    sw3, h3, runCalls_replicate hon3b n, hda, sw5, h5, htr,
    hfire a (by simp [TokenMap.get, hc])⟩

/-- C17, switch token invariant: on every switch that `NewSwitch` and `TrueOn` / `TrueOff`
calls produce, `IsOn` returns a value `v`, the channel of `On()` is closed exactly when `v`
is true and the channel of `Off()` exactly when `v` is false, so exactly one of the two is
closed. -/
theorem switch_token_invariant (b : Bool) (h0 : Heap) (calls : List Bool) :
    ∃ sw h cOn cOff v, Switch.runCalls calls (NewSwitch b h0) = some (sw, h) ∧
      sw.IsOn h = some v ∧ sw.On = some cOn ∧ sw.Off = some cOff ∧
      h.isDone cOn = v ∧ h.isDone cOff = !v ∧ h.isDone cOn ≠ h.isDone cOff := by
  obtain ⟨sw, h, hrun, hok⟩ := reachable_switch b h0 calls
  obtain ⟨a, c, hc, hion, hd⟩ := hok.isOn_eq
  refine ⟨sw, h, c, a, !h.isDone a, hrun, hion, by simp [Switch.On, TokenMap.get, hc],
    by simp [Switch.Off, TokenMap.get, hc], hd, by simp, ?_⟩
  rw [hd]
  cases h.isDone a <;> simp

/-! ## Lemmas on `Release` and on transits that change nothing -/

theorem Switch.Release_spec (sw : Switch) (h : Heap) :
    (sw.Release h).2.size = h.size ∧
      (∀ t, h.isDone t = true → (sw.Release h).2.isDone t = true) ∧
      (∀ k t, sw.cancel.get k = some t → t < h.size → (sw.Release h).2.isDone t = true) := by
  rcases sw with ⟨ctx, ⟨ka, kb⟩⟩
  refine ⟨?_, ?_, ?_⟩
  · cases ka <;> cases kb <;> simp [Switch.Release, Heap.size_cancel]
  · intro t ht
    cases ka <;> cases kb <;> simp [Switch.Release, Heap.isDone_cancel, ht]
  · intro k t hk hlt
    cases k <;> cases ka <;> cases kb <;>
      simp [TokenMap.get] at hk <;> subst hk <;>
      simp [Switch.Release, Heap.isDone_cancel, Heap.size_cancel, hlt]

section
variable {State : Type} [DecidableEq State]

theorem releaseAll_spec (m : Machine State) (order : List State) :
    ∀ h : Heap, (Machine.releaseAll m order h).size = h.size ∧
      (∀ t, h.isDone t = true → (Machine.releaseAll m order h).isDone t = true) ∧
      (∀ k sw b t, k ∈ order → mapGet m.states k = some sw → sw.cancel.get b = some t →
        t < h.size → (Machine.releaseAll m order h).isDone t = true) := by
  induction order with
  | nil =>
    intro h
    exact ⟨rfl, fun _ ht => ht, fun k _ _ _ hk => by simp at hk⟩
  | cons k0 rest ih =>
    intro h
    cases hg : mapGet m.states k0 with
    | none =>
      obtain ⟨hsz, hmono, hall⟩ := ih h
      refine ⟨by simp [Machine.releaseAll, hg, hsz], ?_, ?_⟩
      · intro t ht
        simpa [Machine.releaseAll, hg] using hmono t ht
      · intro k sw b t hk hgk hb hlt
        rcases List.mem_cons.mp hk with e | hk2
        · rw [e, hg] at hgk
          cases hgk
        · simpa [Machine.releaseAll, hg] using hall k sw b t hk2 hgk hb hlt
    | some sw0 =>
      obtain ⟨hsz0, hmono0, hall0⟩ := sw0.Release_spec h
      obtain ⟨hsz, hmono, hall⟩ := ih (sw0.Release h).2
      refine ⟨by simp [Machine.releaseAll, hg, hsz, hsz0], ?_, ?_⟩
      · intro t ht
        simpa [Machine.releaseAll, hg] using hmono t (hmono0 t ht)
      · intro k sw b t hk hgk hb hlt
        rcases List.mem_cons.mp hk with e | hk2
        · rw [e, hg] at hgk
          cases hgk
          simpa [Machine.releaseAll, hg] using hmono t (hall0 b t hb hlt)
        · have hlt2 : t < (sw0.Release h).2.size := by rw [hsz0]; exact hlt
          simpa [Machine.releaseAll, hg] using hall k sw b t hk2 hgk hb hlt2

theorem offOthers_noop (s : State) (order : List State) {m : Machine State} {h : Heap}
    (hoff : ∀ k sw, k ≠ s → mapGet m.states k = some sw → sw.isOn h = some false) :
    Machine.offOthers s order (m, h) = some (m, h) := by
  induction order with
  | nil => rfl
  | cons k rest ih =>
    by_cases hks : k = s
    · simp [Machine.offOthers, hks, ih]
    · cases hg : mapGet m.states k with
      | none => simp [Machine.offOthers, hks, hg, ih]
      | some sw =>
        have hm : (⟨mapPut m.states k sw⟩ : Machine State) = m := by
          rw [mapPut_self hg]
        simp [Machine.offOthers, hks, hg, Switch.TrueOff, trun_same (hoff k sw hks hg), hm, ih]

theorem CurrentState_nil (order : List State) (h : Heap) :
    (⟨[]⟩ : Machine State).CurrentState order h = none := by
  induction order with
  | nil => rfl
  | cons k rest ih => simp [Machine.CurrentState, mapGet, ih]

theorem Reachable.current {init : State} {others : List State} {h0 : Heap}
    {tr : List (State × Option Err)} {m : Machine State} {h : Heap}
    (hr : Reachable init others h0 tr (m, h)) {order : List State}
    (hperm : order.Perm m.keys) :
    m.CurrentState order h = some (lastSuccess init tr) :=
  CurrentState_of_isCurrent hr.inv.2.2 order (hperm.mem_iff.mpr hr.inv.2.2.1)

end

/-! ## The claims on released, unchanged and uninvolved states -/

section
variable {State : Type} [DecidableEq State]

/-- C14, `Release` unblocks every waiter as if its state had matched: on a reachable machine,
for a registered `s`, the channels of `On()` and of `Off()` of its switch, read before
`Release`, one of which is open then, are both closed once `Release` has completed and the
map is gone, so a wait on either with a context that is not cancelled returns nil. -/
theorem release_unblocks_waiters (init : State) (others : List State) (h0 : Heap)
    (tr : List (State × Option Err)) (m : Machine State) (h : Heap) (order : List State)
    (s : State) (hr : Reachable init others h0 tr (m, h)) (hperm : order.Perm m.keys)
    (hs : s ∈ m.keys) :
    ∃ cOn cOff, m.waitChan s ON = some (Sum.inr cOn) ∧
      m.waitChan s OFF = some (Sum.inr cOff) ∧
      h.isDone cOn ≠ h.isDone cOff ∧
      (m.Release order h).1.states = [] ∧
      (m.Release order h).2.isDone cOn = true ∧ (m.Release order h).2.isDone cOff = true ∧
      ∀ pick, selectWait none cOn pick (m.Release order h).2 = WaitResult.returned none ∧
        selectWait none cOff pick (m.Release order h).2 = WaitResult.returned none := by
  obtain ⟨hm, _, _⟩ := hr.inv
  obtain ⟨sw, hg⟩ := mapGet_of_mem_keys hs
  obtain ⟨a, c, hc, hk, ha, hb, hd⟩ := hm.1 s sw hg
  obtain ⟨_, _, hall⟩ := releaseAll_spec m order h
  have hin : s ∈ order := hperm.mem_iff.mpr hs
  have hfa : (m.Release order h).2.isDone a = true :=
    hall s sw true a hin hg (by simp [TokenMap.get, hk]) ha
  have hfc : (m.Release order h).2.isDone c = true :=
    hall s sw false c hin hg (by simp [TokenMap.get, hk]) hb
  refine ⟨c, a, ?_, ?_, ?_, rfl, hfc, hfa, ?_⟩
  · simp [Machine.waitChan, hg, Switch.On, TokenMap.get, hc]
  · simp [Machine.waitChan, hg, Switch.Off, TokenMap.get, hc]
  · rw [hd]
    cases h.isDone c <;> simp
  · intro pick
    simp [selectWait, hfc, hfa]

/-- C15, transit to the current state is a no-op: on a reachable machine whose current
state is `A`, `TransitTo A` returns nil and hands back the very same machine and heap,
whatever the order of its loop: no context is cancelled, none is created or installed, every
channel is as before, and `CurrentState` is still `A`. -/
theorem transit_to_current_is_noop (init : State) (others : List State) (h0 : Heap)
    (tr : List (State × Option Err)) (m : Machine State) (h : Heap)
    (order0 order : List State) (A : State)
    (hr : Reachable init others h0 tr (m, h))
    (hperm0 : order0.Perm m.keys) (hcurA : m.CurrentState order0 h = some A) :
    m.TransitTo order A h = some (none, m, h) := by
  obtain ⟨_, _, hcur⟩ := hr.inv
  have hA : A = lastSuccess init tr := by
    have hc := hr.current hperm0
    rw [hcurA] at hc
    exact Option.some.inj hc
  rw [← hA] at hcur
  obtain ⟨swA, hgA⟩ := mapGet_of_mem_keys hcur.1
  have honA : swA.isOn h = some true := by simpa [Switch.IsOn] using hcur.2 A swA hgA
  have hoff : ∀ k sw, k ≠ A → mapGet m.states k = some sw → sw.isOn h = some false := by
    intro k sw hne hg
    simpa [Switch.IsOn, hne] using hcur.2 k sw hg
  have hm : (⟨mapPut m.states A swA⟩ : Machine State) = m := by
    rw [mapPut_self hgA]
  simp [Machine.TransitTo, hgA, Switch.TrueOn, trun_same honA, hm, offOthers_noop A order hoff]

/-- C16 as amended, operations on a released machine: once `Release` has completed, on any
machine, `CurrentState` panics, while `TransitTo`, `WaitForState` and `WaitForStateToPass`
find no entry in the nil map and return `ErrStateNotExists` for every state, leaving the
released machine and the heap as they are. -/
theorem released_machine_operations (m : Machine State) (order order1 : List State)
    (h : Heap) (s : State) (ctx : Option CtxErr) (pick : Bool) :
    (m.Release order h).1.CurrentState order1 (m.Release order h).2 = none ∧
      (m.Release order h).1.TransitTo order1 s (m.Release order h).2
        = some (some Err.ErrStateNotExists, (m.Release order h).1, (m.Release order h).2) ∧
      (m.Release order h).1.WaitForState ctx s pick (m.Release order h).2
        = some (WaitResult.returned (some Err.ErrStateNotExists),
            (m.Release order h).1, (m.Release order h).2) ∧
      (m.Release order h).1.WaitForStateToPass ctx s pick (m.Release order h).2
        = some (WaitResult.returned (some Err.ErrStateNotExists),
            (m.Release order h).1, (m.Release order h).2) := by
  have hrel : (m.Release order h).1 = ⟨[]⟩ := rfl
  have hg : mapGet (m.Release order h).1.states s = none := rfl
  refine ⟨?_, TransitTo_of_none hg order1 _, ?_, ?_⟩
  · rw [hrel]
    exact CurrentState_nil order1 _
  · simp [Machine.WaitForState, Machine.waitForState, Machine.waitChan, hg]
  · simp [Machine.WaitForStateToPass, Machine.waitForState, Machine.waitChan, hg]

/-- C18, waits are level-triggered: on a reachable machine, with a context that is not
cancelled and no transition taking place, `WaitForState` for the current state returns nil,
and `WaitForStateToPass` for a registered state that is not current returns nil, the channel
selected on being closed already. -/
theorem waits_level_triggered (init : State) (others : List State) (h0 : Heap)
    (tr : List (State × Option Err)) (m : Machine State) (h : Heap) (order : List State)
    (s : State) (pick : Bool) (hr : Reachable init others h0 tr (m, h))
    (hperm : order.Perm m.keys) (hs : s ∈ m.keys) :
    (m.CurrentState order h = some s →
      ∃ c, m.waitChan s ON = some (Sum.inr c) ∧ h.isDone c = true ∧
        m.WaitForState none s pick h = some (WaitResult.returned none, m, h)) ∧
    (m.CurrentState order h ≠ some s →
      ∃ c, m.waitChan s OFF = some (Sum.inr c) ∧ h.isDone c = true ∧
        m.WaitForStateToPass none s pick h = some (WaitResult.returned none, m, h)) := by
  obtain ⟨hm, _, hcur⟩ := hr.inv
  have hc := hr.current hperm
  obtain ⟨sw, hg⟩ := mapGet_of_mem_keys hs
  obtain ⟨a, c, hctx, hion, hd⟩ := (hm.1 s sw hg).isOn_eq
  have hon := hcur.2 s sw hg
  simp only [Switch.IsOn] at hon
  rw [hion] at hon
  have hchOn : m.waitChan s ON = some (Sum.inr c) := by
    simp [Machine.waitChan, hg, Switch.On, TokenMap.get, hctx]
  have hchOff : m.waitChan s OFF = some (Sum.inr a) := by
    simp [Machine.waitChan, hg, Switch.Off, TokenMap.get, hctx]
  constructor
  · intro his
    have heq : s = lastSuccess init tr := by
      rw [hc] at his
      exact (Option.some.inj his).symm
    have hda : h.isDone a = false := by simpa [heq] using hon
    have hdc : h.isDone c = true := by rw [hd, hda]; rfl
    exact ⟨c, hchOn, hdc, by
      simp [Machine.WaitForState, Machine.waitForState, hchOn, selectWait, hdc]⟩
  · intro hnot
    have hne : ¬ s = lastSuccess init tr := by
      intro e1
      exact hnot (by rw [hc, e1])
    have hda : h.isDone a = true := by simpa [hne] using hon
    exact ⟨a, hchOff, hda, by
      simp [Machine.WaitForStateToPass, Machine.waitForState, hchOff, selectWait, hda]⟩

/-- C19, a transit wakes no waiter of an uninvolved state: on a reachable machine whose
current state is `A`, for a registered target `B` and a registered `C` other than `A` and
`B`, the channel of `On()` of the switch of `C` is open before `TransitTo B`, and after the
call it is still the channel `On()` returns and still open, so a wait on it with a context
that is not cancelled keeps blocking. -/
theorem transit_spares_uninvolved (init : State) (others : List State) (h0 : Heap)
    (tr : List (State × Option Err)) (m : Machine State) (h : Heap)
    (order0 order : List State) (A B C : State)
    (hr : Reachable init others h0 tr (m, h))
    (hperm0 : order0.Perm m.keys) (hcurA : m.CurrentState order0 h = some A)
    (hB : B ∈ m.keys) (hC : C ∈ m.keys) (hCA : C ≠ A) (hCB : C ≠ B) :
    ∃ c m1 h1, m.waitChan C ON = some (Sum.inr c) ∧ h.isDone c = false ∧
      m.TransitTo order B h = some (none, m1, h1) ∧
      m1.waitChan C ON = some (Sum.inr c) ∧ h1.isDone c = false ∧
      ∀ pick, selectWait none c pick h1 = WaitResult.blocked := by
  obtain ⟨hm, _, hcur⟩ := hr.inv
  have hA : A = lastSuccess init tr := by
    have hc := hr.current hperm0
    rw [hcurA] at hc
    exact Option.some.inj hc
  rw [← hA] at hcur
  obtain ⟨swB, hgB⟩ := mapGet_of_mem_keys hB
  obtain ⟨swC, hgC⟩ := mapGet_of_mem_keys hC
  have honC : swC.isOn h = some false := by simpa [Switch.IsOn, hCA] using hcur.2 C swC hgC
  obtain ⟨a, c, hctx, hion, hd⟩ := (hm.1 C swC hgC).isOn_eq
  have hda : h.isDone a = true := by
    rw [honC] at hion
    simpa using hion.symm
  have hdc : h.isDone c = false := by rw [hd, hda]; rfl
  obtain ⟨m1, h1, hrun, _, _, _, _, hoth⟩ := TransitTo_spec hm hgB order
  obtain ⟨sw1, hg1, _, hkeep, _⟩ := hoth C swC hCB hgC
  obtain ⟨e1, _, hsame⟩ := hkeep honC
  subst e1
  have hdc1 : h1.isDone c = false := by
    rw [hsame c (Or.inr (by rw [hctx])), hdc]
  refine ⟨c, m1, h1, ?_, hdc, hrun, ?_, hdc1, ?_⟩
  · simp [Machine.waitChan, hgC, Switch.On, TokenMap.get, hctx]
  · simp [Machine.waitChan, hg1, Switch.On, TokenMap.get, hctx]
  · intro pick
    simp [selectWait, hdc1]

end

/-! ## These claims at a concrete machine -/

theorem release_unblocks_waiters_witness :
    Reachable (0 : Nat) [1, 2] ⟨[]⟩ [] (demoMachine, demoHeap) ∧
      ∃ cOn cOff, demoMachine.waitChan 1 ON = some (Sum.inr cOn) ∧
        demoMachine.waitChan 1 OFF = some (Sum.inr cOff) ∧
        demoHeap.isDone cOn ≠ demoHeap.isDone cOff ∧
        (demoMachine.Release [2, 0, 1] demoHeap).1.states = [] ∧
        (demoMachine.Release [2, 0, 1] demoHeap).2.isDone cOn = true ∧
        (demoMachine.Release [2, 0, 1] demoHeap).2.isDone cOff = true ∧
        ∀ pick,
          selectWait none cOn pick (demoMachine.Release [2, 0, 1] demoHeap).2
            = WaitResult.returned none ∧
          selectWait none cOff pick (demoMachine.Release [2, 0, 1] demoHeap).2
            = WaitResult.returned none :=
  ⟨Reachable.new demoMachine demoHeap (by decide),
    release_unblocks_waiters 0 [1, 2] ⟨[]⟩ [] demoMachine demoHeap [2, 0, 1] 1
      (Reachable.new demoMachine demoHeap (by decide)) (by decide) (by decide)⟩

theorem transit_to_current_is_noop_witness :
    Reachable (0 : Nat) [1, 2] ⟨[]⟩ [] (demoMachine, demoHeap) ∧
      demoMachine.CurrentState [0, 1, 2] demoHeap = some 0 ∧
      demoMachine.TransitTo [2, 1, 0] 0 demoHeap = some (none, demoMachine, demoHeap) :=
  ⟨Reachable.new demoMachine demoHeap (by decide), by decide,
    transit_to_current_is_noop 0 [1, 2] ⟨[]⟩ [] demoMachine demoHeap [0, 1, 2] [2, 1, 0] 0
      (Reachable.new demoMachine demoHeap (by decide)) (by decide) (by decide)⟩

/-- C16 as stated fails: after `Release` of the machine of `New 0 [1, 2]`, `TransitTo` and
`WaitForState` for state `0` return `ErrStateNotExists`; they do not panic. -/
theorem released_machine_counterexample :
    Reachable (0 : Nat) [1, 2] ⟨[]⟩ [] (demoMachine, demoHeap) ∧
      (0 : Nat) ∈ demoMachine.keys ∧
      (demoMachine.Release [0, 1, 2] demoHeap).1.TransitTo [] 0
          (demoMachine.Release [0, 1, 2] demoHeap).2
        = some (some Err.ErrStateNotExists, ⟨[]⟩, ⟨[true, true, true, true, true, true]⟩) ∧
      (demoMachine.Release [0, 1, 2] demoHeap).1.TransitTo [] 0
          (demoMachine.Release [0, 1, 2] demoHeap).2 ≠ none ∧
      (demoMachine.Release [0, 1, 2] demoHeap).1.WaitForState none 0 false
          (demoMachine.Release [0, 1, 2] demoHeap).2 ≠ none :=
  ⟨Reachable.new demoMachine demoHeap (by decide), by decide, by decide, by decide, by decide⟩

theorem waits_level_triggered_witness :
    Reachable (0 : Nat) [1, 2] ⟨[]⟩ [] (demoMachine, demoHeap) ∧
      demoMachine.CurrentState [0, 1, 2] demoHeap = some 0 ∧
      (demoMachine.CurrentState [0, 1, 2] demoHeap = some 0 →
        ∃ c, demoMachine.waitChan 0 ON = some (Sum.inr c) ∧ demoHeap.isDone c = true ∧
          demoMachine.WaitForState none 0 false demoHeap
            = some (WaitResult.returned none, demoMachine, demoHeap)) ∧
      (demoMachine.CurrentState [0, 1, 2] demoHeap ≠ some 0 →
        ∃ c, demoMachine.waitChan 0 OFF = some (Sum.inr c) ∧ demoHeap.isDone c = true ∧
          demoMachine.WaitForStateToPass none 0 false demoHeap
            = some (WaitResult.returned none, demoMachine, demoHeap)) :=
  ⟨Reachable.new demoMachine demoHeap (by decide), by decide,
    waits_level_triggered 0 [1, 2] ⟨[]⟩ [] demoMachine demoHeap [0, 1, 2] 0 false
      (Reachable.new demoMachine demoHeap (by decide)) (by decide) (by decide)⟩

theorem transit_spares_uninvolved_witness :
    Reachable (0 : Nat) [1, 2] ⟨[]⟩ [] (demoMachine, demoHeap) ∧
      demoMachine.CurrentState [0, 1, 2] demoHeap = some 0 ∧
      ∃ c m1 h1, demoMachine.waitChan 2 ON = some (Sum.inr c) ∧ demoHeap.isDone c = false ∧
        demoMachine.TransitTo [2, 1, 0] 1 demoHeap = some (none, m1, h1) ∧
        m1.waitChan 2 ON = some (Sum.inr c) ∧ h1.isDone c = false ∧
        ∀ pick, selectWait none c pick h1 = WaitResult.blocked :=
  ⟨Reachable.new demoMachine demoHeap (by decide), by decide,
    transit_spares_uninvolved 0 [1, 2] ⟨[]⟩ [] demoMachine demoHeap [0, 1, 2] [2, 1, 0] 0 1 2
      (Reachable.new demoMachine demoHeap (by decide)) (by decide) (by decide) (by decide)
      (by decide) (by decide) (by decide)⟩

end Fsm
